import Mathlib

/-!
# wpsync: reconciliation of local content with the persisted snapshot

A shallow embedding of `posts.go` and `media.go`.

* Slices are lists; `append(xs, ys...)` is `xs ++ ys`; a named result that is
  never assigned is the nil slice `[]`.
* `for _, p := range local` binds `p` to a copy of the element, so the
  assignment `p.Id = r.Id` in `comparePosts` changes the loop variable only;
  the inner loop is a left fold whose accumulator carries `exists`, `p` and
  `updatePosts`.
* The working directory is an explicit state `FileSystem`; functions that
  write return the next state.  Log output is not part of the state.
* `encoding/json` is a collaborator: it is a parameter `JsonCodec`, and the
  type of file contents is a parameter `β`.  Where a property depends on what
  the decoder leaves behind on an error, `goJson` gives the documented
  behaviour of `json.Unmarshal` over parsed JSON text.
* The functions of `strings` and `time` that `readParseFile` calls are written
  out on lists of characters; the renderer, the clock and the file read are
  parameters.
* The collaborators of the publisher driver take and return the state of the
  outside world.
-/

namespace WPSync

/-! ## Data model -/

/-- An instant of the standard library type `time.Time`, counted in
nanoseconds (the smallest unit the type represents). -/
structure Time where
  unixNano : Int
  deriving DecidableEq, Repr

/-- The method `t.After(u)` of `time.Time`: the instant `t` is strictly after `u`. -/
def Time.After (t u : Time) : Bool := decide (u.unixNano < t.unixNano)

/-- Modelled from the spec: the declaration of `WPTime` is missing from the
sources.  `getLocalPosts` builds it as `WPTime{file.ModTime()}` and
`comparePosts` reads `r.Date.Time`, so it wraps one `time.Time`. -/
structure WPTime where
  Time : Time
  deriving DecidableEq, Repr

/-- The promoted method `p.Date.After(u)` of the embedded `time.Time`. -/
def WPTime.After (t : WPTime) (u : WPSync.Time) : Bool := t.Time.After u

/-- Modelled from the spec: the declaration of `Post` is missing from the
sources.  The fields are the ones `posts.go` reads and writes: the join key
`LocalFile`, the remote identifier `Id`, the remote location `URL` and the
timestamp `Date`. -/
structure Post where
  LocalFile : String
  Id : Int
  URL : String
  Date : WPTime
  deriving DecidableEq, Repr

/-- Modelled from the spec: the declaration of `Media` is missing from the
sources.  The fields are the ones `media.go` reads and writes: the join key
`LocalFile` and the remote identifiers `Id` and `Link`. -/
structure Media where
  LocalFile : String
  Id : Int
  Link : String
  deriving DecidableEq, Repr

/-! ## The working directory -/

/-- The collaborator `encoding/json` for slices of `α`, over file contents of
type `β`.  `marshal` is `json.Marshal`.  `unmarshal` is `json.Unmarshal` into
a nil slice: it gives the slice as the call leaves it together with the error,
if any (the caller keeps the slice in both cases). -/
structure JsonCodec (α β : Type) where
  marshal : List α → Except String β
  unmarshal : β → List α × Option String

/-- A file of the working directory: its content and whether the process may
read it and write it. -/
structure File (β : Type) where
  content : β
  readable : Bool
  writable : Bool

/-- The part of the working directory the state store touches: the two
snapshot files (`none` when the file does not exist) and whether a new file
can be created. -/
structure FileSystem (β : Type) where
  postsJson : Option (File β)
  mediaJson : Option (File β)
  canCreate : Bool

/-- The call `ioutil.ReadFile(name)` on a file that exists. -/
def readFile {β : Type} (f : File β) : Except String β :=
  if f.readable then .ok f.content else .error "permission denied"

/-- The call `ioutil.WriteFile(name, data, 0644)`: an existing file is
truncated and rewritten when it is writable, a missing one is created
(readable and writable by its owner) when the directory allows it; a failed
call leaves the directory entry as it was. -/
def writeFile {β : Type} (canCreate : Bool) (slot : Option (File β)) (data : β) :
    Except String (Option (File β)) :=
  match slot with
  | none =>
    if canCreate then .ok (some ⟨data, true, true⟩) else .error "permission denied"
  | some f =>
    if f.writable then .ok (some { f with content := data }) else .error "permission denied"

/-! ## posts.go -/

/-- The function `getRemotePosts`: the snapshot in `posts.json`, empty when the
file is missing or unreadable, and whatever `json.Unmarshal` left in the
slice otherwise. -/
def getRemotePosts {β : Type} (codec : JsonCodec Post β) (fs : FileSystem β) : List Post :=
  match fs.postsJson with
  | none => []
  | some f =>
    match readFile f with
    | .error _ => []
    | .ok file => (codec.unmarshal file).1

/-- One iteration of the inner loop of `comparePosts` over the remote entry
`r`; the accumulator is `(exists, p, updatePosts)`. -/
def comparePostsInner (acc : Bool × Post × List Post) (r : Post) : Bool × Post × List Post :=
  let p := acc.2.1
  if p.LocalFile = r.LocalFile then
    let p := { p with Id := r.Id }
    if p.Date.After r.Date.Time then
      (true, p, acc.2.2 ++ [p])
    else
      (true, p, acc.2.2)
  else acc

/-- One iteration of the outer loop of `comparePosts` over the local post `p`;
the accumulator is `(newPosts, updatePosts)`. -/
def comparePostsOuter (remote : List Post) (acc : List Post × List Post) (p : Post) :
    List Post × List Post :=
  let inner := remote.foldl comparePostsInner (false, p, acc.2)
  if !inner.1 then (acc.1 ++ [inner.2.1], inner.2.2) else (acc.1, inner.2.2)

/-- The function `comparePosts`: the pair `(newPosts, updatePosts)`. -/
def comparePosts (local_ remote : List Post) : List Post × List Post :=
  local_.foldl (comparePostsOuter remote) ([], [])

/-- The function `writeRemotePosts`: the directory after the call. -/
def writeRemotePosts {β : Type} (codec : JsonCodec Post β) (posts : List Post)
    (fs : FileSystem β) : FileSystem β :=
  if posts.length = 0 then fs
  else
    let existingPosts := getRemotePosts codec fs
    let existingPosts := existingPosts ++ posts
    match codec.marshal existingPosts with
    | .error _ => fs
    | .ok json =>
      match writeFile fs.canCreate fs.postsJson json with
      | .error _ => fs
      | .ok slot => { fs with postsJson := slot }

/-! ## media.go -/

/-- The function `getRemoteMedia`: the snapshot in `media.json`, empty when the
file is missing or unreadable, and whatever `json.Unmarshal` left in the
slice otherwise. -/
def getRemoteMedia {β : Type} (codec : JsonCodec Media β) (fs : FileSystem β) : List Media :=
  match fs.mediaJson with
  | none => []
  | some f =>
    match readFile f with
    | .error _ => []
    | .ok file => (codec.unmarshal file).1

/-- One iteration of the inner loop of `compareMedia` over the remote entry
`r`; the accumulator is `exists`. -/
def compareMediaInner (m : Media) (found : Bool) (r : Media) : Bool :=
  if m.LocalFile = r.LocalFile then true else found

/-- One iteration of the outer loop of `compareMedia` over the local item `m`;
the accumulator is the result slice `media`. -/
def compareMediaOuter (remote : List Media) (media : List Media) (m : Media) : List Media :=
  let found := remote.foldl (compareMediaInner m) false
  if !found then media ++ [m] else media

/-- The function `compareMedia`. -/
def compareMedia (local_ remote : List Media) : List Media :=
  local_.foldl (compareMediaOuter remote) []

/-- The function `writeRemoteMedia`: the directory after the call.  The slice
handed to `json.Marshal` is the argument `media`, not `existingMedia`. -/
def writeRemoteMedia {β : Type} (codec : JsonCodec Media β) (media : List Media)
    (fs : FileSystem β) : FileSystem β :=
  if media.length = 0 then fs
  else
    let existingMedia := getRemoteMedia codec fs
    let _existingMedia := existingMedia ++ media
    match codec.marshal media with
    | .error _ => fs
    | .ok json =>
      match writeFile fs.canCreate fs.mediaJson json with
      | .error _ => fs
      | .ok slot => { fs with mediaJson := slot }

/-! ## Closed forms used to state and prove the properties -/

/-- The remote snapshot has an entry whose `LocalFile` is the one of `p`. -/
def hasRemotePost (remote : List Post) (p : Post) : Bool :=
  remote.any (fun r => decide (p.LocalFile = r.LocalFile))

/-- The posts the inner loop of `comparePosts` emits for the local post `p`:
one copy of `p`, carrying the remote `Id`, for each remote entry with the same
`LocalFile` and a strictly earlier `Date`, in snapshot order. -/
def updatesFor (remote : List Post) (p : Post) : List Post :=
  (remote.filter (fun r => decide (p.LocalFile = r.LocalFile) && p.Date.After r.Date.Time)).map
    (fun r => { p with Id := r.Id })

/-- The remote snapshot has an entry whose `LocalFile` is the one of `m`. -/
def hasRemoteMedia (remote : List Media) (m : Media) : Bool :=
  remote.any (fun r => decide (m.LocalFile = r.LocalFile))

/-! ## Predicates on the state store -/

/-- The snapshot file `slot` holds a valid snapshot `old`: the file is missing
and `old` is empty, or it is readable and decodes to `old` without error. -/
def HoldsSnapshot {α β : Type} (codec : JsonCodec α β) (slot : Option (File β))
    (old : List α) : Prop :=
  match slot with
  | none => old = []
  | some f => f.readable = true ∧ codec.unmarshal f.content = (old, none)

/-- The call `ioutil.WriteFile` on `slot` returns no error. -/
def CanWrite {β : Type} (canCreate : Bool) (slot : Option (File β)) : Prop :=
  match slot with
  | none => canCreate = true
  | some f => f.writable = true

/-- The codec encodes every slice without error and decodes the encoding back
to the same slice without error. -/
def JsonCodec.RoundTrips {α β : Type} (codec : JsonCodec α β) : Prop :=
  ∀ xs : List α, ∃ b : β, codec.marshal xs = .ok b ∧ codec.unmarshal b = (xs, none)

/-- An idealised `encoding/json` used for concrete evaluations: the content of
a file is the slice itself, so encoding never fails and decoding loses nothing. -/
def sliceCodec (α : Type) : JsonCodec α (List α) where
  marshal := fun xs => .ok xs
  unmarshal := fun b => (b, none)

/-- A directory in which only `posts.json` exists, readable and writable,
holding `old` under `sliceCodec`. -/
def postsDir (old : List Post) : FileSystem (List Post) where
  postsJson := some ⟨old, true, true⟩
  mediaJson := none
  canCreate := true

/-- A directory in which only `media.json` exists, readable and writable,
holding `old` under `sliceCodec`. -/
def mediaDir (old : List Media) : FileSystem (List Media) where
  postsJson := none
  mediaJson := some ⟨old, true, true⟩
  canCreate := true

/-- A post with the given file name, identifier and timestamp and no URL. -/
def mkPost (file : String) (id : Int) (nanos : Int) : Post :=
  ⟨file, id, "", ⟨⟨nanos⟩⟩⟩

/-! ## Text and time of the standard library

Text that `readParseFile` takes apart is a list of characters (valid UTF-8
text; the separators the code looks for are ASCII, so cutting at a character
and cutting at its byte give the same pieces). -/

/-- Text as a list of characters. -/
abbrev Str := List Char

/-- The predicate `unicode.IsSpace`: the characters of the Unicode property
White_Space. -/
def isSpace (c : Char) : Bool :=
  let n := c.toNat
  (9 ≤ n && n ≤ 13) || n = 32 || n = 133 || n = 160 || n = 5760 ||
    (8192 ≤ n && n ≤ 8202) || n = 8232 || n = 8233 || n = 8239 || n = 8287 || n = 12288

/-- The function `strings.TrimSpace`: all leading and trailing white space removed. -/
def stringsTrimSpace (s : Str) : Str :=
  ((s.dropWhile isSpace).reverse.dropWhile isSpace).reverse

/-- The function `strings.Trim(s, cutset)` for a cutset of one character: all
leading and trailing occurrences of `c` removed. -/
def stringsTrim (s : Str) (c : Char) : Str :=
  ((s.dropWhile (fun x => decide (x = c))).reverse.dropWhile (fun x => decide (x = c))).reverse

/-- Position of the first occurrence of `c` in `s`, if there is one. -/
def stringsIndexFrom (c : Char) : Str → Nat → Option Nat
  | [], _ => none
  | x :: rest, i => if x = c then some i else stringsIndexFrom c rest (i + 1)

/-- The function `strings.Index(s, sep)` for a separator of one character: the
position of its first occurrence, `-1` when there is none. -/
def stringsIndex (s : Str) (c : Char) : Int :=
  match stringsIndexFrom c s 0 with
  | some i => (i : Int)
  | none => -1

/-- The function `strings.Split(s, "\n")`: the pieces between the newlines, one
more than there are newlines (the only piece of the empty text is the empty
text). -/
def stringsSplit : Str → List Str
  | [] => [[]]
  | c :: rest =>
    if c = '\n' then [] :: stringsSplit rest
    else
      match stringsSplit rest with
      | [] => [[c]]
      | line :: lines => (c :: line) :: lines

/-- The function `strings.Join(lines, "\n")`. -/
def stringsJoin : List Str → Str
  | [] => []
  | [line] => line
  | line :: rest => line ++ '\n' :: stringsJoin rest

/-- The function `strings.Contains(s, substr)` on character lists. -/
def listContains : Str → Str → Bool
  | [], sub => sub.isEmpty
  | c :: rest, sub => sub.isPrefixOf (c :: rest) || listContains rest sub

/-- The function `strings.Contains(s, substr)`. -/
def stringsContains (s substr : String) : Bool := listContains s.toList substr.toList

/-- A character is one of the decimal digits `0` to `9`. -/
def isDigit (c : Char) : Bool := 48 ≤ c.toNat && c.toNat ≤ 57

/-- The value of a decimal digit. -/
def digitVal (c : Char) : Int := (c.toNat : Int) - 48

/-- The year is a leap year of the Gregorian calendar. -/
def isLeap (year : Int) : Bool :=
  year % 4 = 0 && (year % 100 != 0 || year % 400 = 0)

/-- Number of days of the month (`1` to `12`) in the year. -/
def daysIn (month year : Int) : Int :=
  if month = 2 then (if isLeap year then 29 else 28)
  else if month = 4 || month = 6 || month = 9 || month = 11 then 30
  else 31

/-- Number of days of a common year before the first day of the month
(`1` to `12`). -/
def daysBefore (month : Int) : Int :=
  if month = 1 then 0 else if month = 2 then 31 else if month = 3 then 59
  else if month = 4 then 90 else if month = 5 then 120 else if month = 6 then 151
  else if month = 7 then 181 else if month = 8 then 212 else if month = 9 then 243
  else if month = 10 then 273 else if month = 11 then 304 else 334

/-- The call `time.Date(year, month, day, 0, 0, 0, 0, time.UTC)` for a month in
`1..12` and a day of that month: midnight UTC of the civil date, as an instant
counted from 1970-01-01. -/
def timeDate (year month day : Int) : Time :=
  let y := year - 1
  let days := 365 * y + Int.fdiv y 4 - Int.fdiv y 100 + Int.fdiv y 400
    + daysBefore month + (if isLeap year && 3 ≤ month then 1 else 0) + (day - 1)
  ⟨(days - 719162) * 86400 * 1000000000⟩

/-- The zero value `time.Time{}`: January 1 of year 1, 00:00:00 UTC. -/
def zeroTime : Time := ⟨-62135596800000000000⟩

/-- The call `time.Parse("2006-01-02", value)`: the value must be four digits,
a dash, two digits, a dash and two digits, with a month from 1 to 12 and a day
of that month; the result is midnight UTC of that date.  Any other value gives
an error together with the zero `time.Time`. -/
def timeParse (value : Str) : Time × Option String :=
  match value with
  | [y1, y2, y3, y4, s1, m1, m2, s2, d1, d2] =>
    if isDigit y1 && isDigit y2 && isDigit y3 && isDigit y4 && s1 = '-' &&
        isDigit m1 && isDigit m2 && s2 = '-' && isDigit d1 && isDigit d2 then
      let year := digitVal y1 * 1000 + digitVal y2 * 100 + digitVal y3 * 10 + digitVal y4
      let month := digitVal m1 * 10 + digitVal m2
      let day := digitVal d1 * 10 + digitVal d2
      if month ≤ 0 || 12 < month then (zeroTime, some "month out of range")
      else if day < 1 || daysIn month year < day then (zeroTime, some "day out of range")
      else (timeDate year month day, none)
    else (zeroTime, some "cannot parse")
  | _ => (zeroTime, some "cannot parse")

/-! ## posts.go: the front-matter parser -/

/-- Modelled from the spec: the declaration of `Page` is missing from the
sources.  The fields are the ones `readParseFile` sets. -/
structure Page where
  Title : Str
  Content : Str
  Category : Str
  Date : Time
  Tags : Str
  Status : Str
  deriving DecidableEq

/-- The branch `if found == 1` of the loop of `readParseFile`, on the trimmed
line: a line with a colon after its first character sets the field its key
names. -/
def parseParam (page : Page) (line : Str) : Page :=
  let colonIndex := stringsIndex line ':'
  if colonIndex > 0 then
    let key := stringsTrimSpace (line.take colonIndex.toNat)
    let value := stringsTrimSpace (line.drop (colonIndex.toNat + 1))
    let value := stringsTrim value '"'
    if key = "title".toList then { page with Title := value }
    else if key = "date".toList then { page with Date := (timeParse value).1 }
    else if key = "category".toList then { page with Category := value }
    else if key = "tags".toList then { page with Tags := value }
    else if key = "status".toList then { page with Status := value }
    else page
  else page

/-- The loop of `readParseFile` from iteration `i` on: `all` is the slice the
loop ranges over, `rest` its part from index `i`.  The result is the page and
the value of the variable `lines` after the loop. -/
def readParseLoop (all : List Str) : List Str → Nat → Nat → Page → Page × List Str
  | [], _, _, page => (page, all)
  | line :: rest, i, found, page =>
    let line := stringsTrimSpace line
    if found = 1 then
      let page := parseParam page line
      readParseLoop all rest (i + 1) (if line = "---".toList then found + 1 else found) page
    else if found ≥ 2 then
      (page, all.drop i)
    else
      readParseLoop all rest (i + 1) (if line = "---".toList then found + 1 else found) page

/-- The function `readParseFile`.  `render` is the collaborator
`blackfriday.Run`, `now` the value of `time.Now()`, and `files` the result of
`ioutil.ReadFile` for each name in the directory `posts`; a failed read leaves
the data empty. -/
def readParseFile (render : Str → Str) (now : Time) (files : String → Except String Str)
    (filename : String) : Page :=
  let page : Page :=
    { Title := [], Content := [], Category := [], Date := now, Tags := [],
      Status := "publish".toList }
  let data : Str :=
    match files filename with
    | .ok d => d
    | .error _ => []
  let lines := stringsSplit data
  let out := readParseLoop lines lines 0 0 page
  let content := stringsJoin out.2
  { out.1 with Content := render content }

/-! ## posts.go and media.go: the local scanner -/

/-- An entry of a directory listing: the methods `Name()` and `ModTime()` of
`os.FileInfo`. -/
structure FileInfo where
  Name : String
  ModTime : Time
  deriving DecidableEq

/-- The function `getLocalPosts`.  `dir` is the result of
`ioutil.ReadDir("./posts")`; an error ends the run (`log.Fatal`). -/
def getLocalPosts (dir : Except String (List FileInfo)) : Except String (List Post) :=
  match dir with
  | .error e => .error e
  | .ok files =>
    .ok (files.foldl
      (fun posts file =>
        if stringsContains file.Name ".md" then
          posts ++ [{ LocalFile := file.Name, Id := 0, URL := "", Date := ⟨file.ModTime⟩ }]
        else posts)
      [])

/-- The function `getLocalMedia`.  `dir` is the result of
`ioutil.ReadDir("./media")`; an error ends the run (`log.Fatal`). -/
def getLocalMedia (dir : Except String (List FileInfo)) : Except String (List Media) :=
  match dir with
  | .error e => .error e
  | .ok files =>
    .ok (files.foldl
      (fun media file =>
        if stringsContains file.Name ".jpg" then
          media ++ [{ LocalFile := file.Name, Id := 0, Link := "" }]
        else media)
      [])

/-! ## posts.go and media.go: the publisher driver

The collaborators `uploadPost`, `updatePost` and `uploadMedia` talk to the
remote service; they are parameters that take the state `ω` of the outside
world and return their result with the next state. -/

/-- The loop `for i, x := range xs` whose body computes from the copy `x` a new
value for the element `xs[i]` and stores it in place; the slice is returned
with the state of the outside world after the last call. -/
def forRange {α ω : Type} (body : ω → α → α × ω) (w : ω) (xs : List α) : List α × ω :=
  (List.range xs.length).foldl
    (fun acc i =>
      match acc.1[i]? with
      | none => acc
      | some x => (acc.1.set i (body acc.2 x).1, (body acc.2 x).2))
    (xs, w)

/-- The function `uploadPosts`: element `i` gets the `Id`, `URL` and `Date` of
the post that `uploadPost(p.LocalFile)` returns. -/
def uploadPosts {ω : Type} (uploadPost : ω → String → Post × ω) (w : ω) (posts : List Post) :
    List Post × ω :=
  forRange
    (fun w p =>
      let r := uploadPost w p.LocalFile
      ({ p with Id := r.1.Id, URL := r.1.URL, Date := r.1.Date }, r.2))
    w posts

/-- The function `updatePosts`: element `i` gets the `Date` of the post that
`updatePost(p)` returns. -/
def updatePosts {ω : Type} (updatePost : ω → Post → Post × ω) (w : ω) (posts : List Post) :
    List Post × ω :=
  forRange
    (fun w p =>
      let r := updatePost w p
      ({ p with Date := r.1.Date }, r.2))
    w posts

/-- The function `uploadMediaItems`: element `i` gets the `Id` and `Link` of the
item that `uploadMedia(m)` returns. -/
def uploadMediaItems {ω : Type} (uploadMedia : ω → Media → Media × ω) (w : ω)
    (media : List Media) : List Media × ω :=
  forRange
    (fun w m =>
      let r := uploadMedia w m
      ({ m with Id := r.1.Id, Link := r.1.Link }, r.2))
    w media

/-- What the collaborator `call` returns for each item of the list, the calls
being made in list order, each in the state the previous one left. -/
def replies {α β ω : Type} (call : ω → α → β × ω) : ω → List α → List β
  | _, [] => []
  | w, x :: xs => (call w x).1 :: replies call (call w x).2 xs

/-- The state of the outside world after `call` was made for each item of the
list in order. -/
def worldAfter {α β ω : Type} (call : ω → α → β × ω) : ω → List α → ω
  | w, [] => w
  | w, x :: xs => worldAfter call (call w x).2 xs

/-! ## The decoder of encoding/json

What `json.Unmarshal(data, &slice)` leaves in a nil slice of structs, as the
package documents it: the whole input is checked for syntax before anything is
stored; a JSON value that does not fit its target is skipped, the error is
kept and decoding goes on; the error of an `UnmarshalJSON` method ends
decoding at once. -/

/-- A JSON value. -/
inductive Json where
  | null
  | bool (b : Bool)
  | number (n : Int)
  | string (s : String)
  | array (items : List Json)
  | object (fields : List (String × Json))

/-- The bytes of a file as `encoding/json` sees them: not JSON at all, or the
JSON value they spell. -/
inductive JsonText where
  | malformed
  | value (v : Json)

/-- An error met while a value is stored: `soft` is a value that does not fit
its target (decoding goes on), `hard` is the error of an `UnmarshalJSON`
method (decoding stops). -/
inductive DecodeError where
  | soft (msg : String)
  | hard (msg : String)

/-- The message of a decoding error. -/
def DecodeError.msg : DecodeError → String
  | .soft m => m
  | .hard m => m

/-- Decoding of one array element into a fresh struct `zero`: an object is
decoded field by field by `decodeObject` (the struct declarations with their
field tags are missing from the sources, so this is a parameter), `null`
leaves the struct as it is, and any other value does not fit a struct. -/
def decodeStruct {α : Type} (zero : α)
    (decodeObject : List (String × Json) → α × Option DecodeError) :
    Json → α × Option DecodeError
  | .object fields => decodeObject fields
  | .null => (zero, none)
  | _ => (zero, some (.soft "cannot unmarshal into Go value of struct type"))

/-- Decoding of the elements of a JSON array into a slice: the slice grows by
one element before each element is decoded; a soft error is kept and decoding
goes on, a hard error ends decoding with the element in the slice. -/
def decodeArray {α : Type} (decodeElem : Json → α × Option DecodeError) :
    List Json → List α × Option DecodeError
  | [] => ([], none)
  | j :: rest =>
    match decodeElem j with
    | (a, some (.hard m)) => ([a], some (.hard m))
    | (a, some (.soft m)) =>
      (a :: (decodeArray decodeElem rest).1,
        match (decodeArray decodeElem rest).2 with
        | some (.hard m2) => some (.hard m2)
        | _ => some (.soft m))
    | (a, none) => (a :: (decodeArray decodeElem rest).1, (decodeArray decodeElem rest).2)

/-- The call `json.Unmarshal(file, &slice)` on a nil slice of structs: the
slice as the call leaves it, and the error. -/
def goUnmarshal {α : Type} (zero : α)
    (decodeObject : List (String × Json) → α × Option DecodeError) :
    JsonText → List α × Option String
  | .malformed => ([], some "invalid character")
  | .value .null => ([], none)
  | .value (.array items) =>
    ((decodeArray (decodeStruct zero decodeObject) items).1,
      (decodeArray (decodeStruct zero decodeObject) items).2.map DecodeError.msg)
  | .value _ => ([], some "cannot unmarshal into Go value of slice type")

/-- The package `encoding/json` as a codec over `JsonText`; `marshal` stays a
parameter. -/
def goJson {α : Type} (zero : α)
    (decodeObject : List (String × Json) → α × Option DecodeError)
    (marshal : List α → Except String JsonText) : JsonCodec α JsonText where
  marshal := marshal
  unmarshal := goUnmarshal zero decodeObject

/-! ## Closed forms for the front-matter parser -/

/-- The line is a delimiter for `readParseFile`: it is `---` once leading and
trailing white space is removed. -/
def isDelimiter (line : Str) : Bool := decide (stringsTrimSpace line = "---".toList)

/-- What the loop of `readParseFile` does with a line of the front matter: it
trims the line and hands it to `parseParam`. -/
def applyParam (page : Page) (line : Str) : Page := parseParam page (stringsTrimSpace line)

/-- The key of a `key: value` line: the trimmed text before the first colon of
the trimmed line, when that colon is not its first character. -/
def lineKey (line : Str) : Option Str :=
  let t := stringsTrimSpace line
  if stringsIndex t ':' > 0 then some (stringsTrimSpace (t.take (stringsIndex t ':').toNat))
  else none

/-- The value of a `key: value` line: the text after the first colon with
surrounding white space trimmed and then surrounding double quotes stripped. -/
def lineValue (line : Str) : Str :=
  let t := stringsTrimSpace line
  stringsTrim (stringsTrimSpace (t.drop ((stringsIndex t ':').toNat + 1))) '"'

/-- The value of the last line of `fm` whose key is `key`, if there is one. -/
def lastValue (key : Str) (fm : List Str) : Option Str :=
  ((fm.filter (fun l => decide (lineKey l = some key))).getLast?).map lineValue

/-- The page `readParseFile` starts from. -/
def defaultPage (now : Time) : Page :=
  { Title := [], Content := [], Category := [], Date := now, Tags := [],
    Status := "publish".toList }

/-- A directory `posts` in which every name reads as `data`. -/
def oneFile (data : Str) : String → Except String Str := fun _ => .ok data

/-- The example file of the specification. -/
def helloFile : Str :=
  "---\ntitle: \"Hello\"\ndate: 2021-03-01\nstatus: draft\n---\nBody text".toList

/-! ## The loops in closed form -/

theorem updatesFor_setId (remote : List Post) (p : Post) (i : Int) :
    updatesFor remote { p with Id := i } = updatesFor remote p := by
  simp [updatesFor]

theorem hasRemotePost_setId (remote : List Post) (p : Post) (i : Int) :
    hasRemotePost remote { p with Id := i } = hasRemotePost remote p := by
  simp [hasRemotePost]

theorem comparePostsInner_foldl (remote : List Post) :
    ∀ (found : Bool) (p : Post) (up : List Post),
      (remote.foldl comparePostsInner (found, p, up)).1 = (found || hasRemotePost remote p) ∧
      (remote.foldl comparePostsInner (found, p, up)).2.2 = up ++ updatesFor remote p ∧
      (hasRemotePost remote p = false →
        (remote.foldl comparePostsInner (found, p, up)).2.1 = p) := by
  induction remote with
  | nil => intro found p up; simp [hasRemotePost, updatesFor]
  | cons r rest ih =>
    intro found p up
    by_cases hkey : p.LocalFile = r.LocalFile
    · by_cases hdate : p.Date.After r.Date.Time = true
      · have hstep : comparePostsInner (found, p, up) r
            = (true, { p with Id := r.Id }, up ++ [{ p with Id := r.Id }]) := by
          simp [comparePostsInner, hkey, hdate]
        obtain ⟨h1, h2, _⟩ := ih true { p with Id := r.Id } (up ++ [{ p with Id := r.Id }])
        rw [List.foldl_cons, hstep]
        refine ⟨?_, ?_, ?_⟩
        · rw [h1]; simp [hasRemotePost, hkey]
        · rw [h2, updatesFor_setId]; simp [updatesFor, hkey, hdate]
        · intro hno; simp [hasRemotePost, hkey] at hno
      · have hstep : comparePostsInner (found, p, up) r = (true, { p with Id := r.Id }, up) := by
          simp [comparePostsInner, hkey, hdate]
        obtain ⟨h1, h2, _⟩ := ih true { p with Id := r.Id } up
        rw [List.foldl_cons, hstep]
        refine ⟨?_, ?_, ?_⟩
        · rw [h1]; simp [hasRemotePost, hkey]
        · rw [h2, updatesFor_setId]; simp [updatesFor, hkey, hdate]
        · intro hno; simp [hasRemotePost, hkey] at hno
    · have hstep : comparePostsInner (found, p, up) r = (found, p, up) := by
        simp [comparePostsInner, hkey]
      obtain ⟨h1, h2, h3⟩ := ih found p up
      rw [List.foldl_cons, hstep]
      refine ⟨?_, ?_, ?_⟩
      · rw [h1]; simp [hasRemotePost, hkey]
      · rw [h2]; simp [updatesFor, hkey]
      · intro hno; apply h3; simpa [hasRemotePost, hkey] using hno

theorem comparePostsOuter_eq (remote : List Post) (acc : List Post × List Post) (p : Post) :
    comparePostsOuter remote acc p =
      (acc.1 ++ (if hasRemotePost remote p then [] else [p]), acc.2 ++ updatesFor remote p) := by
  obtain ⟨h1, h2, h3⟩ := comparePostsInner_foldl remote false p acc.2
  unfold comparePostsOuter
  simp only [h1, h2, Bool.false_or]
  cases hex : hasRemotePost remote p
  · simp [h3 hex]
  · simp

theorem comparePostsOuter_foldl (remote : List Post) (local_ : List Post) :
    ∀ acc : List Post × List Post,
      local_.foldl (comparePostsOuter remote) acc =
        (acc.1 ++ local_.filter (fun p => !hasRemotePost remote p),
         acc.2 ++ local_.flatMap (updatesFor remote)) := by
  induction local_ with
  | nil => intro acc; simp
  | cons p rest ih =>
    intro acc
    rw [List.foldl_cons, ih, comparePostsOuter_eq]
    cases hex : hasRemotePost remote p <;> simp [hex, List.filter_cons]

/-- Closed form of `comparePosts`: `newPosts` is a filter of the local list
and `updatePosts` concatenates, post by post, the emitted updates. -/
theorem comparePosts_eq (local_ remote : List Post) :
    comparePosts local_ remote =
      (local_.filter (fun p => !hasRemotePost remote p), local_.flatMap (updatesFor remote)) := by
  unfold comparePosts
  rw [comparePostsOuter_foldl]
  simp

theorem compareMediaInner_foldl (m : Media) (remote : List Media) :
    ∀ found : Bool,
      remote.foldl (compareMediaInner m) found = (found || hasRemoteMedia remote m) := by
  induction remote with
  | nil => intro found; simp [hasRemoteMedia]
  | cons r rest ih =>
    intro found
    rw [List.foldl_cons, ih]
    by_cases hkey : m.LocalFile = r.LocalFile <;>
      simp [compareMediaInner, hasRemoteMedia, hkey]

theorem compareMediaOuter_foldl (remote : List Media) (local_ : List Media) :
    ∀ media : List Media,
      local_.foldl (compareMediaOuter remote) media =
        media ++ local_.filter (fun m => !hasRemoteMedia remote m) := by
  induction local_ with
  | nil => intro media; simp
  | cons m rest ih =>
    intro media
    rw [List.foldl_cons, ih]
    cases hex : hasRemoteMedia remote m <;>
      simp [compareMediaOuter, compareMediaInner_foldl, hex, List.filter_cons]

theorem hasRemotePost_eq_false_iff (remote : List Post) (p : Post) :
    hasRemotePost remote p = false ↔ ∀ r ∈ remote, p.LocalFile ≠ r.LocalFile := by
  simp [hasRemotePost]

theorem hasRemotePost_eq_true_iff (remote : List Post) (p : Post) :
    hasRemotePost remote p = true ↔ ∃ r ∈ remote, p.LocalFile = r.LocalFile := by
  simp [hasRemotePost]

theorem mem_updatesFor (remote : List Post) (p u : Post) :
    u ∈ updatesFor remote p ↔
      ∃ r ∈ remote, (p.LocalFile = r.LocalFile ∧ p.Date.After r.Date.Time = true) ∧
        { p with Id := r.Id } = u := by
  simp only [updatesFor, List.mem_map, List.mem_filter, Bool.and_eq_true, decide_eq_true_eq]
  constructor
  · rintro ⟨r, ⟨hr, hc⟩, hu⟩; exact ⟨r, hr, hc, hu⟩
  · rintro ⟨r, hr, hc, hu⟩; exact ⟨r, ⟨hr, hc⟩, hu⟩

theorem updatesFor_eq_nil_of_not_after (remote : List Post) (p : Post)
    (h : ∀ r ∈ remote, r.LocalFile = p.LocalFile → p.Date.After r.Date.Time = false) :
    updatesFor remote p = [] := by
  unfold updatesFor
  rw [List.map_eq_nil_iff, List.filter_eq_nil_iff]
  intro r hr
  by_cases hkey : p.LocalFile = r.LocalFile
  · simp [hkey, h r hr hkey.symm]
  · simp [hkey]

/-! ## Classification of posts -/

/-- C3. Idempotence of classification: when every local post has a remote entry
with its `LocalFile` and no remote entry with that `LocalFile` has an earlier
`Date`, `comparePosts` returns an empty `newPosts` and an empty `updatePosts`. -/
theorem comparePosts_idempotent (local_ remote : List Post)
    (hcover : ∀ p ∈ local_, ∃ r ∈ remote, r.LocalFile = p.LocalFile)
    (hdate : ∀ p ∈ local_, ∀ r ∈ remote, r.LocalFile = p.LocalFile →
      p.Date.After r.Date.Time = false) :
    comparePosts local_ remote = ([], []) := by
  rw [comparePosts_eq]
  refine Prod.ext ?_ ?_
  · show local_.filter (fun p => !hasRemotePost remote p) = []
    rw [List.filter_eq_nil_iff]
    intro p hp
    obtain ⟨r, hr, hkey⟩ := hcover p hp
    have : hasRemotePost remote p = true :=
      (hasRemotePost_eq_true_iff remote p).2 ⟨r, hr, hkey.symm⟩
    simp [this]
  · show local_.flatMap (updatesFor remote) = []
    rw [List.flatMap_eq_nil_iff]
    intro p hp
    exact updatesFor_eq_nil_of_not_after remote p (hdate p hp)


/-- Witness for C3: the remote snapshot is the local list itself, with
pairwise distinct file names and unchanged timestamps. -/
theorem comparePosts_idempotent_witness :
    (∀ p ∈ [mkPost "a.md" 1 5, mkPost "b.md" 2 7],
      ∃ r ∈ [mkPost "a.md" 1 5, mkPost "b.md" 2 7], r.LocalFile = p.LocalFile) ∧
    (∀ p ∈ [mkPost "a.md" 1 5, mkPost "b.md" 2 7],
      ∀ r ∈ [mkPost "a.md" 1 5, mkPost "b.md" 2 7], r.LocalFile = p.LocalFile →
        p.Date.After r.Date.Time = false) ∧
    comparePosts [mkPost "a.md" 1 5, mkPost "b.md" 2 7]
      [mkPost "a.md" 1 5, mkPost "b.md" 2 7] = ([], []) :=
  ⟨by decide, by decide,
    comparePosts_idempotent [mkPost "a.md" 1 5, mkPost "b.md" 2 7]
      [mkPost "a.md" 1 5, mkPost "b.md" 2 7] (by decide) (by decide)⟩

/-- The special case named in C3: classifying a list with pairwise distinct
file names against itself yields nothing new and nothing to update. -/
theorem comparePosts_self (local_ : List Post) (hnodup : (local_.map (·.LocalFile)).Nodup) :
    comparePosts local_ local_ = ([], []) := by
  rw [comparePosts_eq]
  refine Prod.ext ?_ ?_
  · show local_.filter (fun p => !hasRemotePost local_ p) = []
    rw [List.filter_eq_nil_iff]
    intro p hp
    have : hasRemotePost local_ p = true :=
      (hasRemotePost_eq_true_iff local_ p).2 ⟨p, hp, rfl⟩
    simp [this]
  · show local_.flatMap (updatesFor local_) = []
    rw [List.flatMap_eq_nil_iff]
    intro p hp
    apply updatesFor_eq_nil_of_not_after
    intro r hr hkey
    have hrp : r = p := List.inj_on_of_nodup_map hnodup hr hp hkey
    subst hrp
    simp [WPTime.After, Time.After]

/-- C4. Update threshold: against a snapshot with exactly one entry `R` for the
file of `L`, `comparePosts [L]` emits nothing when `L.Date` is equal to or
earlier than `R.Date`, and emits `L` with the `Id` of `R` as the only update
when `L.Date` is strictly later, be it by one nanosecond. -/
theorem comparePosts_update_threshold (L R : Post) (remote : List Post)
    (hone : remote.filter (fun r => decide (L.LocalFile = r.LocalFile)) = [R]) :
    (L.Date.Time.unixNano ≤ R.Date.Time.unixNano → comparePosts [L] remote = ([], [])) ∧
    (R.Date.Time.unixNano < L.Date.Time.unixNano →
      comparePosts [L] remote = ([], [{ L with Id := R.Id }])) := by
  have hmem : R ∈ remote.filter (fun r => decide (L.LocalFile = r.LocalFile)) := by
    rw [hone]; exact List.mem_singleton_self R
  have hR : R ∈ remote ∧ L.LocalFile = R.LocalFile := by
    simpa [List.mem_filter] using hmem
  have hex : hasRemotePost remote L = true :=
    (hasRemotePost_eq_true_iff remote L).2 ⟨R, hR.1, hR.2⟩
  have hup : updatesFor remote L =
      ([R].filter (fun r => L.Date.After r.Date.Time)).map (fun r => { L with Id := r.Id }) := by
    unfold updatesFor
    rw [← hone, List.filter_filter]
    congr 1
    apply List.filter_congr
    intro r _
    rw [Bool.and_comm]
  constructor
  · intro hle
    have hafter : L.Date.After R.Date.Time = false := by
      simp [WPTime.After, Time.After, hle]
    rw [comparePosts_eq]
    simp [hex, hup, hafter]
  · intro hlt
    have hafter : L.Date.After R.Date.Time = true := by
      simp [WPTime.After, Time.After, hlt]
    rw [comparePosts_eq]
    simp [hex, hup, hafter]

/-- Witness for C4: the local post is one nanosecond newer than its only
remote counterpart, next to an entry for another file. -/
theorem comparePosts_update_threshold_witness :
    [mkPost "b.md" 3 9, mkPost "a.md" 7 100].filter
        (fun r => decide ((mkPost "a.md" 0 101).LocalFile = r.LocalFile))
      = [mkPost "a.md" 7 100] ∧
    (mkPost "a.md" 7 100).Date.Time.unixNano < (mkPost "a.md" 0 101).Date.Time.unixNano ∧
    comparePosts [mkPost "a.md" 0 101] [mkPost "b.md" 3 9, mkPost "a.md" 7 100]
      = ([], [{ mkPost "a.md" 0 101 with Id := (mkPost "a.md" 7 100).Id }]) :=
  ⟨by decide, by decide,
    (comparePosts_update_threshold (mkPost "a.md" 0 101) (mkPost "a.md" 7 100)
      [mkPost "b.md" 3 9, mkPost "a.md" 7 100] (by decide)).2 (by decide)⟩

/-- C5. Join correctness: every post of `updatePosts` is a local post `L` whose
`Id` was replaced by the `Id` of a remote entry `R` with the same `LocalFile`
and a strictly earlier `Date`; every post of `newPosts` is a local post as it
stood in the local list. -/
theorem comparePosts_join (local_ remote : List Post) :
    (∀ U ∈ (comparePosts local_ remote).2, ∃ L ∈ local_, ∃ R ∈ remote,
      R.LocalFile = L.LocalFile ∧ L.Date.After R.Date.Time = true ∧
      U = { L with Id := R.Id }) ∧
    (∀ N ∈ (comparePosts local_ remote).1, N ∈ local_) := by
  rw [comparePosts_eq]
  constructor
  · intro U hU
    obtain ⟨L, hL, hUL⟩ := List.mem_flatMap.1 hU
    obtain ⟨R, hR, ⟨hkey, hafter⟩, hEq⟩ := (mem_updatesFor remote L U).1 hUL
    exact ⟨L, hL, R, hR, hkey.symm, hafter, hEq.symm⟩
  · intro N hN
    exact (List.mem_filter.1 hN).1

/-- Witness for C5 on a snapshot with one older entry for the local file. -/
theorem comparePosts_join_witness :
    ∃ L ∈ [mkPost "a.md" 0 5], ∃ R ∈ [mkPost "a.md" 7 3],
      R.LocalFile = L.LocalFile ∧ L.Date.After R.Date.Time = true ∧
      mkPost "a.md" 7 5 = { L with Id := R.Id } :=
  (comparePosts_join [mkPost "a.md" 0 5] [mkPost "a.md" 7 3]).1 (mkPost "a.md" 7 5) (by decide)


theorem hasRemotePost_eq_all (remote : List Post) (p : Post) :
    (!hasRemotePost remote p) = remote.all (fun r => decide (p.LocalFile ≠ r.LocalFile)) := by
  induction remote with
  | nil => rfl
  | cons r rest ih =>
    simp only [hasRemotePost, List.any_cons, List.all_cons, Bool.not_or] at ih ⊢
    rw [ih]
    by_cases hkey : p.LocalFile = r.LocalFile <;> simp [hkey]

theorem hasRemotePost_redate (g : Post → WPTime) (remote : List Post) (p : Post) :
    hasRemotePost (remote.map (fun r => { r with Date := g r })) p = hasRemotePost remote p := by
  simp [hasRemotePost, List.any_map, Function.comp_def]

/-- C6. The list `newPosts` is the local list filtered, in order and with every
field unchanged, to the posts whose `LocalFile` is the `LocalFile` of no remote
entry.  Timestamps play no part: changing the dates of the snapshot leaves
`newPosts` as it is, and changing the dates of the local posts selects the
same posts. -/
theorem comparePosts_new_eq_filter (local_ remote : List Post) :
    (comparePosts local_ remote).1 =
      local_.filter (fun p => remote.all (fun r => decide (p.LocalFile ≠ r.LocalFile))) ∧
    (∀ g : Post → WPTime,
      (comparePosts local_ (remote.map (fun r => { r with Date := g r }))).1 =
        (comparePosts local_ remote).1) ∧
    (∀ f : Post → WPTime,
      (comparePosts (local_.map (fun p => { p with Date := f p })) remote).1 =
        (comparePosts local_ remote).1.map (fun p => { p with Date := f p })) := by
  refine ⟨?_, ?_, ?_⟩
  · rw [comparePosts_eq]
    show local_.filter (fun p => !hasRemotePost remote p) = _
    apply List.filter_congr
    intro p _
    exact hasRemotePost_eq_all remote p
  · intro g
    rw [comparePosts_eq, comparePosts_eq]
    show List.filter _ local_ = List.filter _ local_
    apply List.filter_congr
    intro p _
    rw [hasRemotePost_redate]
  · intro f
    rw [comparePosts_eq, comparePosts_eq]
    show List.filter _ (List.map _ local_) = List.map _ (List.filter _ local_)
    rw [List.filter_map]
    congr 1

/-- C9. The two results of `comparePosts` are disjoint: no `LocalFile` value
occurs both in `newPosts` and in `updatePosts`. -/
theorem comparePosts_disjoint (local_ remote : List Post) :
    List.Disjoint ((comparePosts local_ remote).1.map (·.LocalFile))
      ((comparePosts local_ remote).2.map (·.LocalFile)) := by
  rw [comparePosts_eq]
  intro k hnew hupd
  obtain ⟨N, hN, hNk⟩ := List.mem_map.1 hnew
  obtain ⟨U, hU, hUk⟩ := List.mem_map.1 hupd
  obtain ⟨L, _, hUL⟩ := List.mem_flatMap.1 hU
  obtain ⟨R, hR, ⟨hkey, _⟩, hEq⟩ := (mem_updatesFor remote L U).1 hUL
  have hNno : hasRemotePost remote N = false := by
    simpa using (List.mem_filter.1 hN).2
  have hUL2 : U.LocalFile = L.LocalFile := by rw [← hEq]
  apply (hasRemotePost_eq_false_iff remote N).1 hNno R hR
  rw [hNk, ← hUk, hUL2, hkey]

theorem updatesFor_keys (remote : List Post) (p : Post) :
    (updatesFor remote p).map (·.LocalFile) =
      List.replicate (updatesFor remote p).length p.LocalFile := by
  apply List.eq_replicate_iff.2
  refine ⟨by simp, ?_⟩
  intro k hk
  obtain ⟨u, hu, huk⟩ := List.mem_map.1 hk
  obtain ⟨r, _, _, hEq⟩ := (mem_updatesFor remote p u).1 hu
  rw [← huk, ← hEq]

theorem updatesFor_length_le_one (remote : List Post) (p : Post)
    (hnodup : (remote.map (·.LocalFile)).Nodup) : (updatesFor remote p).length ≤ 1 := by
  unfold updatesFor
  rw [List.length_map]
  induction remote with
  | nil => simp
  | cons r rest ih =>
    rw [List.map_cons, List.nodup_cons] at hnodup
    by_cases hkey : p.LocalFile = r.LocalFile
    · have hrest : rest.filter
          (fun r => decide (p.LocalFile = r.LocalFile) && p.Date.After r.Date.Time) = [] := by
        rw [List.filter_eq_nil_iff]
        intro r2 hr2
        have hne : p.LocalFile ≠ r2.LocalFile := by
          intro h
          exact hnodup.1 (List.mem_map.2 ⟨r2, hr2, by rw [← h, hkey]⟩)
        simp [hne]
      rw [List.filter_cons, hrest]
      split <;> simp
    · rw [List.filter_cons]
      simp only [hkey, decide_False, Bool.false_and, Bool.false_eq_true, if_false]
      exact ih hnodup.2

theorem updatesFor_keys_sublist (remote : List Post) (p : Post)
    (hnodup : (remote.map (·.LocalFile)).Nodup) :
    ((updatesFor remote p).map (·.LocalFile)).Sublist [p.LocalFile] := by
  rw [updatesFor_keys]
  have hlen := updatesFor_length_le_one remote p hnodup
  have h01 : (updatesFor remote p).length = 0 ∨ (updatesFor remote p).length = 1 := by omega
  rcases h01 with h | h <;> rw [h] <;> simp

/-- Counterexample to C8 as stated: with two older snapshot entries for the
same file, the only local post is emitted twice in `updatePosts`. -/
theorem comparePosts_subsequence_counterexample :
    ¬ (((comparePosts [mkPost "a.md" 0 5]
          [mkPost "a.md" 7 3, mkPost "a.md" 8 4]).1.map (·.LocalFile)).Sublist
        ([mkPost "a.md" 0 5].map (·.LocalFile)) ∧
      ((comparePosts [mkPost "a.md" 0 5]
          [mkPost "a.md" 7 3, mkPost "a.md" 8 4]).2.map (·.LocalFile)).Sublist
        ([mkPost "a.md" 0 5].map (·.LocalFile))) := by
  decide

/-- C8, amended. The file names of `newPosts` are an ordered subsequence of the
local file names for every snapshot; the file names of `updatePosts` are one
whenever the `LocalFile` values of the snapshot are pairwise distinct. -/
theorem comparePosts_subsequence (local_ remote : List Post) :
    ((comparePosts local_ remote).1.map (·.LocalFile)).Sublist (local_.map (·.LocalFile)) ∧
    ((remote.map (·.LocalFile)).Nodup →
      ((comparePosts local_ remote).2.map (·.LocalFile)).Sublist
        (local_.map (·.LocalFile))) := by
  rw [comparePosts_eq]
  constructor
  · exact (List.filter_sublist local_).map _
  · intro hnodup
    show ((local_.flatMap (updatesFor remote)).map (·.LocalFile)).Sublist _
    induction local_ with
    | nil => simp
    | cons p rest ih =>
      rw [List.flatMap_cons, List.map_append, List.map_cons]
      exact (updatesFor_keys_sublist remote p hnodup).append ih

/-- Witness for C8, amended: a snapshot with distinct file names, one of them
older than the local post. -/
theorem comparePosts_subsequence_witness :
    ([mkPost "a.md" 7 3, mkPost "b.md" 8 4].map (·.LocalFile)).Nodup ∧
    ((comparePosts [mkPost "a.md" 0 5, mkPost "c.md" 0 1]
        [mkPost "a.md" 7 3, mkPost "b.md" 8 4]).2.map (·.LocalFile)).Sublist
      ([mkPost "a.md" 0 5, mkPost "c.md" 0 1].map (·.LocalFile)) :=
  ⟨by decide,
    (comparePosts_subsequence [mkPost "a.md" 0 5, mkPost "c.md" 0 1]
      [mkPost "a.md" 7 3, mkPost "b.md" 8 4]).2 (by decide)⟩

/-! ## Classification of media -/

/-- Closed form of `compareMedia`. -/
theorem compareMedia_eq (local_ remote : List Media) :
    compareMedia local_ remote = local_.filter (fun m => !hasRemoteMedia remote m) := by
  unfold compareMedia
  rw [compareMediaOuter_foldl]
  simp

theorem hasRemoteMedia_eq_all (remote : List Media) (m : Media) :
    (!hasRemoteMedia remote m) = remote.all (fun r => decide (m.LocalFile ≠ r.LocalFile)) := by
  induction remote with
  | nil => rfl
  | cons r rest ih =>
    simp only [hasRemoteMedia, List.any_cons, List.all_cons, Bool.not_or] at ih ⊢
    rw [ih]
    by_cases hkey : m.LocalFile = r.LocalFile <;> simp [hkey]

/-- C7. Media no-update: `compareMedia` is the local list filtered, in order
and unchanged, to the items whose `LocalFile` is the `LocalFile` of no remote
entry; an item whose `LocalFile` is in the snapshot is never in the result,
whatever its `Id` and `Link` are. -/
theorem compareMedia_eq_filter (local_ remote : List Media) :
    compareMedia local_ remote =
      local_.filter (fun m => remote.all (fun r => decide (m.LocalFile ≠ r.LocalFile))) ∧
    (∀ m : Media, (∃ r ∈ remote, r.LocalFile = m.LocalFile) →
      m ∉ compareMedia local_ remote) := by
  have hfilter : compareMedia local_ remote =
      local_.filter (fun m => remote.all (fun r => decide (m.LocalFile ≠ r.LocalFile))) := by
    rw [compareMedia_eq]
    apply List.filter_congr
    intro m _
    exact hasRemoteMedia_eq_all remote m
  refine ⟨hfilter, ?_⟩
  rintro m ⟨r, hr, hkey⟩ hm
  rw [hfilter] at hm
  have hall := (List.mem_filter.1 hm).2
  rw [List.all_eq_true] at hall
  have := hall r hr
  simp [hkey] at this

/-- Witness for C7: the item that is in the snapshot is skipped although its
identifiers differ, the other one is kept. -/
theorem compareMedia_eq_filter_witness :
    (∃ r ∈ [(⟨"a.jpg", 7, "u"⟩ : Media)], r.LocalFile = (⟨"a.jpg", 0, ""⟩ : Media).LocalFile) ∧
    (⟨"a.jpg", 0, ""⟩ : Media) ∉
      compareMedia [⟨"a.jpg", 0, ""⟩, ⟨"b.jpg", 0, ""⟩] [⟨"a.jpg", 7, "u"⟩] :=
  ⟨by decide,
    (compareMedia_eq_filter [⟨"a.jpg", 0, ""⟩, ⟨"b.jpg", 0, ""⟩] [⟨"a.jpg", 7, "u"⟩]).2
      ⟨"a.jpg", 0, ""⟩ (by decide)⟩


/-! ## The state store -/

theorem getRemotePosts_of_holds {β : Type} (codec : JsonCodec Post β) (fs : FileSystem β)
    (old : List Post) (hold : HoldsSnapshot codec fs.postsJson old) :
    getRemotePosts codec fs = old := by
  unfold getRemotePosts
  unfold HoldsSnapshot at hold
  cases hslot : fs.postsJson with
  | none => rw [hslot] at hold; simp [hold]
  | some f =>
    rw [hslot] at hold
    simp [readFile, hold.1, hold.2]

theorem getRemoteMedia_of_holds {β : Type} (codec : JsonCodec Media β) (fs : FileSystem β)
    (old : List Media) (hold : HoldsSnapshot codec fs.mediaJson old) :
    getRemoteMedia codec fs = old := by
  unfold getRemoteMedia
  unfold HoldsSnapshot at hold
  cases hslot : fs.mediaJson with
  | none => rw [hslot] at hold; simp [hold]
  | some f =>
    rw [hslot] at hold
    simp [readFile, hold.1, hold.2]

theorem writeFile_of_canWrite {β : Type} (canCreate : Bool) (slot : Option (File β)) (b : β)
    (hread : ∀ f, slot = some f → f.readable = true) (hwr : CanWrite canCreate slot) :
    ∃ f : File β, writeFile canCreate slot b = .ok (some f) ∧
      f.content = b ∧ f.readable = true ∧ f.writable = true := by
  cases slot with
  | none =>
    have hc : canCreate = true := hwr
    exact ⟨⟨b, true, true⟩, by simp [writeFile, hc], rfl, rfl, rfl⟩
  | some f =>
    have hw : f.writable = true := hwr
    exact ⟨{ f with content := b }, by simp [writeFile, hw], rfl, hread f rfl, hw⟩

theorem holdsSnapshot_readable {α β : Type} (codec : JsonCodec α β) (slot : Option (File β))
    (old : List α) (hold : HoldsSnapshot codec slot old) :
    ∀ f, slot = some f → f.readable = true := by
  intro f hf
  subst hf
  exact hold.1

/-- A successful `writeRemotePosts` leaves in `posts.json` the encoding of the
loaded snapshot followed by the argument, in a readable and writable file. -/
theorem writeRemotePosts_slot {β : Type} (codec : JsonCodec Post β) (fs : FileSystem β)
    (old new : List Post) (b : β) (hnew : new ≠ [])
    (hold : HoldsSnapshot codec fs.postsJson old)
    (henc : codec.marshal (old ++ new) = .ok b)
    (hwr : CanWrite fs.canCreate fs.postsJson) :
    ∃ f : File β, writeRemotePosts codec new fs = { fs with postsJson := some f } ∧
      f.content = b ∧ f.readable = true ∧ f.writable = true := by
  obtain ⟨f, hf, hc, hr, hw⟩ := writeFile_of_canWrite fs.canCreate fs.postsJson b
    (holdsSnapshot_readable codec fs.postsJson old hold) hwr
  refine ⟨f, ?_, hc, hr, hw⟩
  have hlen : new.length ≠ 0 := by simpa using hnew
  unfold writeRemotePosts
  simp only [hlen, if_false, getRemotePosts_of_holds codec fs old hold, henc, hf]

/-- C2. Append, not replace, for posts: when `posts.json` holds the valid
snapshot `old`, `new` is not empty, and the encoding of `old ++ new` and the
write succeed, then after `writeRemotePosts new` the file holds a snapshot
that `getRemotePosts` loads back as `old ++ new`. -/
theorem writeRemotePosts_appends {β : Type} (codec : JsonCodec Post β) (fs : FileSystem β)
    (old new : List Post) (b : β) (hnew : new ≠ [])
    (hold : HoldsSnapshot codec fs.postsJson old)
    (henc : codec.marshal (old ++ new) = .ok b)
    (hdec : codec.unmarshal b = (old ++ new, none))
    (hwr : CanWrite fs.canCreate fs.postsJson) :
    HoldsSnapshot codec (writeRemotePosts codec new fs).postsJson (old ++ new) ∧
    getRemotePosts codec (writeRemotePosts codec new fs) = old ++ new := by
  obtain ⟨f, hfs, hc, hr, _⟩ := writeRemotePosts_slot codec fs old new b hnew hold henc hwr
  have hholds : HoldsSnapshot codec (writeRemotePosts codec new fs).postsJson (old ++ new) := by
    rw [hfs]
    exact ⟨hr, by rw [hc, hdec]⟩
  exact ⟨hholds, getRemotePosts_of_holds codec _ _ hholds⟩

/-- Witness for C2: the snapshot holds `Y` and `X` is saved. -/
theorem writeRemotePosts_appends_witness :
    [mkPost "x.md" 1 5] ≠ [] ∧
    getRemotePosts (sliceCodec Post)
        (writeRemotePosts (sliceCodec Post) [mkPost "x.md" 1 5] (postsDir [mkPost "y.md" 2 3]))
      = [mkPost "y.md" 2 3] ++ [mkPost "x.md" 1 5] :=
  ⟨by decide,
    (writeRemotePosts_appends (sliceCodec Post) (postsDir [mkPost "y.md" 2 3])
      [mkPost "y.md" 2 3] [mkPost "x.md" 1 5] ([mkPost "y.md" 2 3] ++ [mkPost "x.md" 1 5])
      (by decide) ⟨rfl, rfl⟩ rfl rfl rfl).2⟩

/-- What `writeRemoteMedia` does in general: under the conditions of C1 the
file holds the encoding of `new` alone, and `old` is gone. -/
theorem writeRemoteMedia_replaces {β : Type} (codec : JsonCodec Media β) (fs : FileSystem β)
    (old new : List Media) (b : β) (hnew : new ≠ [])
    (hold : HoldsSnapshot codec fs.mediaJson old)
    (henc : codec.marshal new = .ok b)
    (hdec : codec.unmarshal b = (new, none))
    (hwr : CanWrite fs.canCreate fs.mediaJson) :
    getRemoteMedia codec (writeRemoteMedia codec new fs) = new := by
  obtain ⟨f, hf, hc, hr, _⟩ := writeFile_of_canWrite fs.canCreate fs.mediaJson b
    (holdsSnapshot_readable codec fs.mediaJson old hold) hwr
  have hlen : new.length ≠ 0 := by simpa using hnew
  have hfs : writeRemoteMedia codec new fs = { fs with mediaJson := some f } := by
    unfold writeRemoteMedia
    simp only [hlen, if_false, henc, hf]
  rw [hfs]
  apply getRemoteMedia_of_holds
  exact ⟨hr, by rw [hc, hdec]⟩

/-- C1, the code at the failing input: `media.json` holds `[Y]`, and after
`writeRemoteMedia [X]` it loads back as `[X]`: the entry `Y` is lost. -/
theorem writeRemoteMedia_loses_old :
    getRemoteMedia (sliceCodec Media) (mediaDir [⟨"y.jpg", 2, "v"⟩]) = [⟨"y.jpg", 2, "v"⟩] ∧
    getRemoteMedia (sliceCodec Media)
        (writeRemoteMedia (sliceCodec Media) [⟨"x.jpg", 1, "u"⟩] (mediaDir [⟨"y.jpg", 2, "v"⟩]))
      = [⟨"x.jpg", 1, "u"⟩] ∧
    (⟨"y.jpg", 2, "v"⟩ : Media) ∉ getRemoteMedia (sliceCodec Media)
        (writeRemoteMedia (sliceCodec Media) [⟨"x.jpg", 1, "u"⟩]
          (mediaDir [⟨"y.jpg", 2, "v"⟩])) := by
  decide


/-! ## Key uniqueness across a run -/

theorem sliceCodec_roundTrips (α : Type) : (sliceCodec α).RoundTrips :=
  fun xs => ⟨xs, rfl, rfl⟩

/-- With a codec that round-trips and a writable file, `writeRemotePosts`
leaves a valid snapshot `old ++ posts` in a file that is still writable, also
when `posts` is empty and nothing is written. -/
theorem writeRemotePosts_roundTrips {β : Type} (codec : JsonCodec Post β) (fs : FileSystem β)
    (old posts : List Post) (hrt : codec.RoundTrips)
    (hold : HoldsSnapshot codec fs.postsJson old)
    (hwr : CanWrite fs.canCreate fs.postsJson) :
    HoldsSnapshot codec (writeRemotePosts codec posts fs).postsJson (old ++ posts) ∧
    CanWrite (writeRemotePosts codec posts fs).canCreate
      (writeRemotePosts codec posts fs).postsJson := by
  by_cases hnil : posts = []
  · subst hnil
    have hfs : writeRemotePosts codec [] fs = fs := by simp [writeRemotePosts]
    rw [hfs, List.append_nil]
    exact ⟨hold, hwr⟩
  · obtain ⟨b, henc, hdec⟩ := hrt (old ++ posts)
    obtain ⟨f, hfs, hc, hr, hw⟩ := writeRemotePosts_slot codec fs old posts b hnil hold henc hwr
    rw [hfs]
    exact ⟨⟨hr, by rw [hc, hdec]⟩, hw⟩

theorem newPosts_keys_nodup (local_ remote : List Post)
    (hremote : (remote.map (·.LocalFile)).Nodup) (hlocal : (local_.map (·.LocalFile)).Nodup) :
    ((remote ++ (comparePosts local_ remote).1).map (·.LocalFile)).Nodup := by
  rw [comparePosts_eq, List.map_append, List.nodup_append]
  refine ⟨hremote, ?_, ?_⟩
  · exact hlocal.sublist ((List.filter_sublist local_).map _)
  · intro k hk hnew
    obtain ⟨r, hr, hrk⟩ := List.mem_map.1 hk
    obtain ⟨N, hN, hNk⟩ := List.mem_map.1 hnew
    have hNno : hasRemotePost remote N = false := by
      simpa using (List.mem_filter.1 hN).2
    exact (hasRemotePost_eq_false_iff remote N).1 hNno r hr (by rw [hNk, hrk])

theorem updatePosts_key_in_remote (local_ remote : List Post) (U : Post)
    (hU : U ∈ (comparePosts local_ remote).2) :
    U.LocalFile ∈ remote.map (·.LocalFile) := by
  rw [comparePosts_eq] at hU
  obtain ⟨L, _, hUL⟩ := List.mem_flatMap.1 hU
  obtain ⟨R, hR, ⟨hkey, _⟩, hEq⟩ := (mem_updatesFor remote L U).1 hUL
  refine List.mem_map.2 ⟨R, hR, ?_⟩
  rw [← hEq]
  exact hkey.symm

/-- Counterexample to C10 as stated: the snapshot holds one entry for `a.md`,
the local `a.md` is newer, and after the run the snapshot holds two entries
for `a.md`. -/
theorem run_keys_counterexample :
    ([mkPost "a.md" 7 3].map (·.LocalFile)).Nodup ∧
    ([mkPost "a.md" 0 5].map (·.LocalFile)).Nodup ∧
    ¬ ((getRemotePosts (sliceCodec Post)
        (writeRemotePosts (sliceCodec Post)
          (comparePosts [mkPost "a.md" 0 5]
            (getRemotePosts (sliceCodec Post) (postsDir [mkPost "a.md" 7 3]))).2
          (writeRemotePosts (sliceCodec Post)
            (comparePosts [mkPost "a.md" 0 5]
              (getRemotePosts (sliceCodec Post) (postsDir [mkPost "a.md" 7 3]))).1
            (postsDir [mkPost "a.md" 7 3])))).map (·.LocalFile)).Nodup := by
  decide

/-- C10, amended. With a snapshot `old` and a local list whose `LocalFile`
values are pairwise distinct, a codec that round-trips and a writable file:
after `comparePosts` and the two calls of `writeRemotePosts` the snapshot is
`old ++ newPosts ++ updatePosts`; saving the new posts keeps the `LocalFile`
values pairwise distinct, and after saving the updated posts too they are
pairwise distinct exactly when `updatePosts` is empty. -/
theorem run_keys_nodup_iff {β : Type} (codec : JsonCodec Post β) (fs : FileSystem β)
    (old local_ : List Post) (hrt : codec.RoundTrips)
    (hold : HoldsSnapshot codec fs.postsJson old)
    (hwr : CanWrite fs.canCreate fs.postsJson)
    (hremote : (old.map (·.LocalFile)).Nodup)
    (hlocal : (local_.map (·.LocalFile)).Nodup) :
    getRemotePosts codec
        (writeRemotePosts codec (comparePosts local_ (getRemotePosts codec fs)).2
          (writeRemotePosts codec (comparePosts local_ (getRemotePosts codec fs)).1 fs))
      = old ++ (comparePosts local_ old).1 ++ (comparePosts local_ old).2 ∧
    ((getRemotePosts codec
        (writeRemotePosts codec (comparePosts local_ (getRemotePosts codec fs)).1 fs)).map
      (·.LocalFile)).Nodup ∧
    (((getRemotePosts codec
        (writeRemotePosts codec (comparePosts local_ (getRemotePosts codec fs)).2
          (writeRemotePosts codec (comparePosts local_ (getRemotePosts codec fs)).1 fs))).map
      (·.LocalFile)).Nodup ↔ (comparePosts local_ (getRemotePosts codec fs)).2 = []) := by
  rw [getRemotePosts_of_holds codec fs old hold]
  obtain ⟨h1, hw1⟩ :=
    writeRemotePosts_roundTrips codec fs old (comparePosts local_ old).1 hrt hold hwr
  obtain ⟨h2, _⟩ :=
    writeRemotePosts_roundTrips codec _ _ (comparePosts local_ old).2 hrt h1 hw1
  rw [getRemotePosts_of_holds codec _ _ h1, getRemotePosts_of_holds codec _ _ h2]
  refine ⟨rfl, newPosts_keys_nodup local_ old hremote hlocal, ?_⟩
  constructor
  · intro hnodup
    by_contra hne
    obtain ⟨U, rest, hU⟩ := List.exists_cons_of_ne_nil hne
    have hUmem : U ∈ (comparePosts local_ old).2 := by rw [hU]; exact List.mem_cons_self U rest
    have hin := updatePosts_key_in_remote local_ old U hUmem
    rw [List.map_append, List.nodup_append] at hnodup
    have hleft : U.LocalFile ∈ (old ++ (comparePosts local_ old).1).map (·.LocalFile) := by
      rw [List.map_append]
      exact List.mem_append_left _ hin
    have hright : U.LocalFile ∈ (comparePosts local_ old).2.map (·.LocalFile) :=
      List.mem_map.2 ⟨U, hUmem, rfl⟩
    exact hnodup.2.2 hleft hright
  · intro hnil
    rw [hnil, List.append_nil]
    exact newPosts_keys_nodup local_ old hremote hlocal

/-- Witness for C10, amended: a run that publishes one new post and updates
none keeps the file names of the snapshot pairwise distinct. -/
theorem run_keys_nodup_iff_witness :
    ([mkPost "a.md" 7 3].map (·.LocalFile)).Nodup ∧
    ([mkPost "a.md" 0 3, mkPost "b.md" 0 4].map (·.LocalFile)).Nodup ∧
    getRemotePosts (sliceCodec Post)
        (writeRemotePosts (sliceCodec Post)
          (comparePosts [mkPost "a.md" 0 3, mkPost "b.md" 0 4]
            (getRemotePosts (sliceCodec Post) (postsDir [mkPost "a.md" 7 3]))).2
          (writeRemotePosts (sliceCodec Post)
            (comparePosts [mkPost "a.md" 0 3, mkPost "b.md" 0 4]
              (getRemotePosts (sliceCodec Post) (postsDir [mkPost "a.md" 7 3]))).1
            (postsDir [mkPost "a.md" 7 3])))
      = [mkPost "a.md" 7 3]
        ++ (comparePosts [mkPost "a.md" 0 3, mkPost "b.md" 0 4] [mkPost "a.md" 7 3]).1
        ++ (comparePosts [mkPost "a.md" 0 3, mkPost "b.md" 0 4] [mkPost "a.md" 7 3]).2 :=
  ⟨by decide, by decide,
    (run_keys_nodup_iff (sliceCodec Post) (postsDir [mkPost "a.md" 7 3])
      [mkPost "a.md" 7 3] [mkPost "a.md" 0 3, mkPost "b.md" 0 4]
      (fun xs => ⟨xs, rfl, rfl⟩) ⟨rfl, rfl⟩ rfl (by decide) (by decide)).1⟩

/-! ## The front-matter parser -/

theorem parseParam_delimiter (page : Page) : parseParam page "---".toList = page := by
  have h : stringsIndex "---".toList ':' = -1 := by decide
  have hneg : ¬ ((-1 : Int) > 0) := by decide
  unfold parseParam
  simp only [h, hneg, if_false]

theorem applyParam_delimiter (page : Page) (d : Str) (hd : isDelimiter d = true) :
    applyParam page d = page := by
  unfold isDelimiter at hd
  unfold applyParam
  rw [of_decide_eq_true hd]
  exact parseParam_delimiter page

theorem readParseLoop_found0_none (all : List Str) (rest : List Str) :
    ∀ (i : Nat) (page : Page), (∀ l ∈ rest, isDelimiter l = false) →
      readParseLoop all rest i 0 page = (page, all) := by
  induction rest with
  | nil => intro i page _; simp [readParseLoop]
  | cons l rest ih =>
    intro i page h
    have hl : ¬ stringsTrimSpace l = "---".toList := by
      have := h l (List.mem_cons_self l rest)
      simpa [isDelimiter] using this
    rw [readParseLoop]
    simp only [Nat.zero_ne_one, if_false, ge_iff_le, Nat.not_succ_le_zero, hl]
    exact ih (i + 1) page (fun x hx => h x (List.mem_cons_of_mem l hx))

theorem readParseLoop_found0_skip (all : List Str) (pre : List Str) (d : Str) (rest : List Str)
    (hd : isDelimiter d = true) :
    ∀ (i : Nat) (page : Page), (∀ l ∈ pre, isDelimiter l = false) →
      readParseLoop all (pre ++ d :: rest) i 0 page =
        readParseLoop all rest (i + pre.length + 1) 1 page := by
  induction pre with
  | nil =>
    intro i page _
    have hd2 : stringsTrimSpace d = "---".toList := by simpa [isDelimiter] using hd
    rw [List.nil_append, readParseLoop]
    simp [hd2]
  | cons l pre ih =>
    intro i page h
    have hl : ¬ stringsTrimSpace l = "---".toList := by
      have := h l (List.mem_cons_self l pre)
      simpa [isDelimiter] using this
    rw [List.cons_append, readParseLoop]
    simp only [Nat.zero_ne_one, if_false, ge_iff_le, Nat.not_succ_le_zero, hl]
    rw [ih (i + 1) page (fun x hx => h x (List.mem_cons_of_mem l hx))]
    have hidx : i + 1 + pre.length + 1 = i + (l :: pre).length + 1 := by
      simp only [List.length_cons]
      omega
    rw [hidx]
    simp

theorem readParseLoop_found1_none (all : List Str) (fm : List Str) :
    ∀ (i : Nat) (page : Page), (∀ l ∈ fm, isDelimiter l = false) →
      readParseLoop all fm i 1 page = (fm.foldl applyParam page, all) := by
  induction fm with
  | nil => intro i page _; simp [readParseLoop]
  | cons l fm ih =>
    intro i page h
    have hl : ¬ stringsTrimSpace l = "---".toList := by
      have := h l (List.mem_cons_self l fm)
      simpa [isDelimiter] using this
    rw [readParseLoop]
    simp only [if_true, hl, if_false]
    rw [ih (i + 1) _ (fun x hx => h x (List.mem_cons_of_mem l hx))]
    rfl

theorem readParseLoop_found1_skip (all : List Str) (fm : List Str) (d : Str) (rest : List Str)
    (hd : isDelimiter d = true) :
    ∀ (i : Nat) (page : Page), (∀ l ∈ fm, isDelimiter l = false) →
      readParseLoop all (fm ++ d :: rest) i 1 page =
        readParseLoop all rest (i + fm.length + 1) 2 (fm.foldl applyParam page) := by
  induction fm with
  | nil =>
    intro i page _
    have hd2 : stringsTrimSpace d = "---".toList := by simpa [isDelimiter] using hd
    rw [List.nil_append, readParseLoop]
    simp only [hd2, if_true, parseParam_delimiter, List.length_nil, List.foldl_nil,
      Nat.add_zero]
  | cons l fm ih =>
    intro i page h
    have hl : ¬ stringsTrimSpace l = "---".toList := by
      have := h l (List.mem_cons_self l fm)
      simpa [isDelimiter] using this
    rw [List.cons_append, readParseLoop]
    simp only [if_true, hl, if_false]
    rw [ih (i + 1) _ (fun x hx => h x (List.mem_cons_of_mem l hx))]
    have hidx : i + 1 + fm.length + 1 = i + (l :: fm).length + 1 := by
      simp only [List.length_cons]
      omega
    rw [hidx]
    rfl

theorem readParseLoop_found2 (all : List Str) (rest : List Str) (i : Nat) (page : Page) :
    readParseLoop all rest i 2 page = (page, if rest = [] then all else all.drop i) := by
  cases rest with
  | nil => simp [readParseLoop]
  | cons l rest => simp [readParseLoop]

/-- The loop on a file without delimiter lines changes nothing. -/
theorem readParseLoop_no_delimiter (lines : List Str) (page : Page)
    (h : ∀ l ∈ lines, isDelimiter l = false) :
    readParseLoop lines lines 0 0 page = (page, lines) :=
  readParseLoop_found0_none lines lines 0 page h

/-- The loop on a file with exactly one delimiter line: the lines after it set
the fields, and `lines` stays the whole file. -/
theorem readParseLoop_one_delimiter (pre fm : List Str) (d : Str) (page : Page)
    (hpre : ∀ l ∈ pre, isDelimiter l = false) (hd : isDelimiter d = true)
    (hfm : ∀ l ∈ fm, isDelimiter l = false) :
    readParseLoop (pre ++ d :: fm) (pre ++ d :: fm) 0 0 page =
      (fm.foldl applyParam page, pre ++ d :: fm) := by
  rw [readParseLoop_found0_skip _ pre d fm hd 0 page hpre,
    readParseLoop_found1_none _ fm _ page hfm]

/-- The loop on a file with two delimiter lines: the lines between them set
the fields; `lines` becomes the lines after the second one when there are
any, and stays the whole file when the second delimiter is the last line. -/
theorem readParseLoop_two_delimiters (pre fm body : List Str) (d1 d2 : Str) (page : Page)
    (hpre : ∀ l ∈ pre, isDelimiter l = false) (hd1 : isDelimiter d1 = true)
    (hfm : ∀ l ∈ fm, isDelimiter l = false) (hd2 : isDelimiter d2 = true) :
    readParseLoop (pre ++ d1 :: (fm ++ d2 :: body)) (pre ++ d1 :: (fm ++ d2 :: body)) 0 0 page =
      (fm.foldl applyParam page,
        if body = [] then pre ++ d1 :: (fm ++ d2 :: body) else body) := by
  rw [readParseLoop_found0_skip _ pre d1 _ hd1 0 page hpre,
    readParseLoop_found1_skip _ fm d2 body hd2 _ page hfm, readParseLoop_found2]
  congr 1
  by_cases hb : body = []
  · simp [hb]
  · simp only [hb, if_false]
    have hlen : 0 + pre.length + 1 + fm.length + 1 = (pre ++ d1 :: (fm ++ [d2])).length := by
      simp only [List.length_append, List.length_cons, List.length_nil]
      omega
    have hsplit : pre ++ d1 :: (fm ++ d2 :: body) = (pre ++ d1 :: (fm ++ [d2])) ++ body := by
      simp
    rw [hlen, hsplit, List.drop_left]

theorem stringsSplit_ne_nil (s : Str) : stringsSplit s ≠ [] := by
  cases s with
  | nil => simp [stringsSplit]
  | cons c rest =>
    unfold stringsSplit
    by_cases hc : c = '\n'
    · simp [hc]
    · simp only [hc, if_false]
      split <;> simp

/-- Splitting a text into lines and joining the lines gives the text back. -/
theorem stringsJoin_stringsSplit (s : Str) : stringsJoin (stringsSplit s) = s := by
  induction s with
  | nil => rfl
  | cons c rest ih =>
    unfold stringsSplit
    by_cases hc : c = '\n'
    · simp only [hc, if_true]
      obtain ⟨line, lines, hsplit⟩ := List.exists_cons_of_ne_nil (stringsSplit_ne_nil rest)
      rw [hsplit] at ih ⊢
      simp only [stringsJoin, List.nil_append]
      rw [ih]
    · simp only [hc, if_false]
      obtain ⟨line, lines, hsplit⟩ := List.exists_cons_of_ne_nil (stringsSplit_ne_nil rest)
      rw [hsplit] at ih ⊢
      cases lines with
      | nil =>
        simp only [stringsJoin] at ih ⊢
        rw [ih]
      | cons l2 ls =>
        simp only [stringsJoin, List.cons_append] at ih ⊢
        rw [ih]

/-- The function `readParseFile` in terms of its loop. -/
theorem readParseFile_eq (render : Str → Str) (now : Time) (files : String → Except String Str)
    (filename : String) (data : Str) (hread : files filename = .ok data) :
    readParseFile render now files filename =
      { (readParseLoop (stringsSplit data) (stringsSplit data) 0 0 (defaultPage now)).1 with
        Content := render (stringsJoin
          (readParseLoop (stringsSplit data) (stringsSplit data) 0 0 (defaultPage now)).2) } := by
  unfold readParseFile
  simp only [hread]
  rfl

/-- A file without delimiter lines: the default page with the whole file rendered. -/
theorem readParseFile_no_delimiter (render : Str → Str) (now : Time)
    (files : String → Except String Str) (filename : String) (data : Str)
    (hread : files filename = .ok data)
    (hnone : ∀ l ∈ stringsSplit data, isDelimiter l = false) :
    readParseFile render now files filename =
      { defaultPage now with Content := render data } := by
  rw [readParseFile_eq render now files filename data hread,
    readParseLoop_no_delimiter _ _ hnone, stringsJoin_stringsSplit]

/-- A file with exactly one delimiter line: the lines after it set the fields
and the whole file is rendered. -/
theorem readParseFile_one_delimiter (render : Str → Str) (now : Time)
    (files : String → Except String Str) (filename : String) (data : Str)
    (pre fm : List Str) (d : Str)
    (hread : files filename = .ok data)
    (hsplit : stringsSplit data = pre ++ d :: fm)
    (hpre : ∀ l ∈ pre, isDelimiter l = false) (hd : isDelimiter d = true)
    (hfm : ∀ l ∈ fm, isDelimiter l = false) :
    readParseFile render now files filename =
      { fm.foldl applyParam (defaultPage now) with Content := render data } := by
  rw [readParseFile_eq render now files filename data hread, hsplit,
    readParseLoop_one_delimiter pre fm d _ hpre hd hfm, ← hsplit, stringsJoin_stringsSplit]

/-- A file with two delimiter lines: the lines between them set the fields;
the lines after the second one are rendered when there are any, the whole
file when the second delimiter is the last line. -/
theorem readParseFile_two_delimiters (render : Str → Str) (now : Time)
    (files : String → Except String Str) (filename : String) (data : Str)
    (pre fm body : List Str) (d1 d2 : Str)
    (hread : files filename = .ok data)
    (hsplit : stringsSplit data = pre ++ d1 :: (fm ++ d2 :: body))
    (hpre : ∀ l ∈ pre, isDelimiter l = false) (hd1 : isDelimiter d1 = true)
    (hfm : ∀ l ∈ fm, isDelimiter l = false) (hd2 : isDelimiter d2 = true) :
    readParseFile render now files filename =
      { fm.foldl applyParam (defaultPage now) with
        Content := render (if body = [] then data else stringsJoin body) } := by
  rw [readParseFile_eq render now files filename data hread, hsplit,
    readParseLoop_two_delimiters pre fm body d1 d2 _ hpre hd1 hfm hd2]
  by_cases hb : body = []
  · simp only [hb, if_true]
    rw [← hb, ← hsplit, stringsJoin_stringsSplit]
  · simp only [hb, if_false]

/-- What one front-matter line does to the page, by the key of the line. -/
theorem applyParam_eq (page : Page) (l : Str) :
    applyParam page l =
      match lineKey l with
      | none => page
      | some key =>
        if key = "title".toList then { page with Title := lineValue l }
        else if key = "date".toList then { page with Date := (timeParse (lineValue l)).1 }
        else if key = "category".toList then { page with Category := lineValue l }
        else if key = "tags".toList then { page with Tags := lineValue l }
        else if key = "status".toList then { page with Status := lineValue l }
        else page := by
  unfold applyParam parseParam lineKey lineValue
  by_cases hc : stringsIndex (stringsTrimSpace l) ':' > 0
  · simp only [hc, if_true]
  · simp only [hc, if_false]

theorem lastValue_append_singleton (key : Str) (fm : List Str) (l : Str) :
    lastValue key (fm ++ [l]) =
      if lineKey l = some key then some (lineValue l) else lastValue key fm := by
  unfold lastValue
  rw [List.filter_append]
  by_cases hk : lineKey l = some key
  · simp [hk, List.filter_cons]
  · simp [hk, List.filter_cons]

/-- A field that a line sets exactly when the line has the key `key` holds,
after the front matter, the value of the last line with that key. -/
theorem foldl_applyParam_field {α : Type} (proj : Page → α) (key : Str) (val : Str → α)
    (hstep : ∀ (page : Page) (l : Str), proj (applyParam page l) =
      if lineKey l = some key then val (lineValue l) else proj page)
    (fm : List Str) (page : Page) :
    proj (fm.foldl applyParam page) = ((lastValue key fm).map val).getD (proj page) := by
  induction fm using List.reverseRecOn with
  | nil => simp [lastValue]
  | append_singleton fm l ih =>
    rw [List.foldl_append, List.foldl_cons, List.foldl_nil, hstep, lastValue_append_singleton]
    by_cases hk : lineKey l = some key
    · simp [hk]
    · simp only [hk, if_false]
      exact ih

theorem applyParam_title (page : Page) (l : Str) :
    (applyParam page l).Title =
      if lineKey l = some "title".toList then lineValue l else page.Title := by
  rw [applyParam_eq]
  cases hk : lineKey l with
  | none => simp
  | some key =>
    simp only [Option.some.injEq]
    by_cases h1 : key = "title".toList
    · simp [h1]
    · simp only [h1, if_false]
      split_ifs <;> rfl

theorem applyParam_category (page : Page) (l : Str) :
    (applyParam page l).Category =
      if lineKey l = some "category".toList then lineValue l else page.Category := by
  rw [applyParam_eq]
  cases hk : lineKey l with
  | none => simp
  | some key =>
    simp only [Option.some.injEq]
    by_cases h1 : key = "category".toList
    · subst h1; simp
    · simp only [h1, if_false]
      split_ifs <;> rfl

theorem applyParam_tags (page : Page) (l : Str) :
    (applyParam page l).Tags =
      if lineKey l = some "tags".toList then lineValue l else page.Tags := by
  rw [applyParam_eq]
  cases hk : lineKey l with
  | none => simp
  | some key =>
    simp only [Option.some.injEq]
    by_cases h1 : key = "tags".toList
    · subst h1; simp
    · simp only [h1, if_false]
      split_ifs <;> rfl

theorem applyParam_status (page : Page) (l : Str) :
    (applyParam page l).Status =
      if lineKey l = some "status".toList then lineValue l else page.Status := by
  rw [applyParam_eq]
  cases hk : lineKey l with
  | none => simp
  | some key =>
    simp only [Option.some.injEq]
    by_cases h1 : key = "status".toList
    · subst h1; simp
    · simp only [h1, if_false]
      split_ifs <;> rfl

theorem applyParam_date (page : Page) (l : Str) :
    (applyParam page l).Date =
      if lineKey l = some "date".toList then (timeParse (lineValue l)).1 else page.Date := by
  rw [applyParam_eq]
  cases hk : lineKey l with
  | none => simp
  | some key =>
    simp only [Option.some.injEq]
    by_cases h1 : key = "date".toList
    · subst h1; simp
    · simp only [h1, if_false]
      split_ifs <;> rfl

/-- The fields of the page after the front-matter lines `fm`, starting from
the default page: each holds the value of the last line with its key. -/
theorem frontMatter_fields (fm : List Str) (now : Time) :
    (fm.foldl applyParam (defaultPage now)).Title = (lastValue "title".toList fm).getD [] ∧
    (fm.foldl applyParam (defaultPage now)).Category =
      (lastValue "category".toList fm).getD [] ∧
    (fm.foldl applyParam (defaultPage now)).Tags = (lastValue "tags".toList fm).getD [] ∧
    (fm.foldl applyParam (defaultPage now)).Status =
      (lastValue "status".toList fm).getD "publish".toList ∧
    (fm.foldl applyParam (defaultPage now)).Date =
      ((lastValue "date".toList fm).map (fun v => (timeParse v).1)).getD now := by
  refine ⟨?_, ?_, ?_, ?_, ?_⟩
  · have h := foldl_applyParam_field (·.Title) "title".toList id applyParam_title fm
      (defaultPage now)
    simpa using h
  · have h := foldl_applyParam_field (·.Category) "category".toList id applyParam_category fm
      (defaultPage now)
    simpa using h
  · have h := foldl_applyParam_field (·.Tags) "tags".toList id applyParam_tags fm
      (defaultPage now)
    simpa using h
  · have h := foldl_applyParam_field (·.Status) "status".toList id applyParam_status fm
      (defaultPage now)
    simpa using h
  · exact foldl_applyParam_field (·.Date) "date".toList (fun v => (timeParse v).1)
      applyParam_date fm (defaultPage now)

/-- A line without a key, or with a key other than the five recognised ones,
leaves the page as it is. -/
theorem applyParam_other_key (page : Page) (l : Str)
    (hkey : ∀ key, lineKey l = some key →
      key ≠ "title".toList ∧ key ≠ "date".toList ∧ key ≠ "category".toList ∧
      key ≠ "tags".toList ∧ key ≠ "status".toList) :
    applyParam page l = page := by
  rw [applyParam_eq]
  cases hk : lineKey l with
  | none => rfl
  | some key =>
    obtain ⟨h1, h2, h3, h4, h5⟩ := hkey key hk
    simp only [h1, h2, h3, h4, h5, if_false]

/-- Counterexample to C11 as stated: the first front-matter line is `---`
followed by a blank, which is not the text `---`, yet it closes the front
matter, and the `title` line after it is not read. -/
theorem readParseFile_front_matter_counterexample :
    stringsSplit "---\n--- \ntitle: x\n---\nbody".toList =
      "---".toList :: (["--- ".toList, "title: x".toList] ++ "---".toList :: ["body".toList]) ∧
    (∀ l ∈ ["--- ".toList, "title: x".toList], l ≠ "---".toList) ∧
    lastValue "title".toList ["--- ".toList, "title: x".toList] = some "x".toList ∧
    (readParseFile id ⟨0⟩ (oneFile "---\n--- \ntitle: x\n---\nbody".toList) "a.md").Title = [] := by
  decide

/-- C11, amended. Front-matter extraction: for a file whose first line is a
delimiter, followed by lines `fm` none of which is `---` once surrounding
white space is removed, followed by a delimiter line and the body,
`readParseFile` returns `Title`, `Category`, `Tags` and `Status` equal to the
value of the last line of `fm` with that key (trimmed, quotes stripped;
`publish` for `Status` and empty for the others when there is none), and
`Date` equal to what `time.Parse` gives for the value of the last `date` line
(the current time when there is none); a line with any other key changes
nothing. -/
theorem readParseFile_front_matter (render : Str → Str) (now : Time)
    (files : String → Except String Str) (filename : String) (data : Str)
    (fm body : List Str) (d1 d2 : Str)
    (hread : files filename = .ok data)
    (hsplit : stringsSplit data = d1 :: (fm ++ d2 :: body))
    (hd1 : isDelimiter d1 = true)
    (hfm : ∀ l ∈ fm, isDelimiter l = false)
    (hd2 : isDelimiter d2 = true) :
    (readParseFile render now files filename).Title =
      (lastValue "title".toList fm).getD [] ∧
    (readParseFile render now files filename).Category =
      (lastValue "category".toList fm).getD [] ∧
    (readParseFile render now files filename).Tags =
      (lastValue "tags".toList fm).getD [] ∧
    (readParseFile render now files filename).Status =
      (lastValue "status".toList fm).getD "publish".toList ∧
    (readParseFile render now files filename).Date =
      ((lastValue "date".toList fm).map (fun v => (timeParse v).1)).getD now ∧
    (∀ (page : Page) (l : Str),
      (∀ key, lineKey l = some key →
        key ≠ "title".toList ∧ key ≠ "date".toList ∧ key ≠ "category".toList ∧
        key ≠ "tags".toList ∧ key ≠ "status".toList) →
      applyParam page l = page) := by
  have hpage := readParseFile_two_delimiters render now files filename data [] fm body d1 d2
    hread hsplit (by simp) hd1 hfm hd2
  obtain ⟨h1, h2, h3, h4, h5⟩ := frontMatter_fields fm now
  rw [hpage]
  exact ⟨h1, h2, h3, h4, h5, applyParam_other_key⟩

/-- Witness for C11, amended: the example of the specification yields the title
`Hello`, the date 2021-03-01 and the status `draft`. -/
theorem readParseFile_front_matter_witness :
    stringsSplit helloFile =
      "---".toList ::
        (["title: \"Hello\"".toList, "date: 2021-03-01".toList, "status: draft".toList] ++
          "---".toList :: ["Body text".toList]) ∧
    (readParseFile id ⟨0⟩ (oneFile helloFile) "hello.md").Title = "Hello".toList ∧
    (readParseFile id ⟨0⟩ (oneFile helloFile) "hello.md").Date = timeDate 2021 3 1 ∧
    (readParseFile id ⟨0⟩ (oneFile helloFile) "hello.md").Status = "draft".toList :=
  have h := readParseFile_front_matter id ⟨0⟩ (oneFile helloFile) "hello.md" helloFile
    ["title: \"Hello\"".toList, "date: 2021-03-01".toList, "status: draft".toList]
    ["Body text".toList] "---".toList "---".toList rfl (by decide) (by decide) (by decide)
    (by decide)
  ⟨by decide, h.1.trans (by decide), h.2.2.2.2.1.trans (by decide),
    h.2.2.2.1.trans (by decide)⟩

/-- Counterexample to C12 as stated: the file has two lines equal to `---`,
the second one followed by `c`, but its first line `---` followed by a blank
already opens the front matter, so the text rendered is `b`, `---`, `c`. -/
theorem readParseFile_body_counterexample :
    stringsSplit "--- \na\n---\nb\n---\nc".toList =
      ["--- ".toList, "a".toList] ++ "---".toList :: (["b".toList] ++
        "---".toList :: ["c".toList]) ∧
    (["--- ".toList, "a".toList, "b".toList].filter
      (fun l => decide (l = "---".toList))) = [] ∧
    (readParseFile id ⟨0⟩ (oneFile "--- \na\n---\nb\n---\nc".toList) "a.md").Content =
      "b\n---\nc".toList ∧
    (readParseFile id ⟨0⟩ (oneFile "--- \na\n---\nb\n---\nc".toList) "a.md").Content ≠
      stringsJoin ["c".toList] := by
  decide

/-- C12, amended. For a file with at least two delimiter lines, a delimiter
being a line that is `---` once surrounding white space is removed, and with
at least one line after the second of them, the text handed to the renderer is
exactly the lines after the second delimiter line joined by newlines. -/
theorem readParseFile_body (render : Str → Str) (now : Time)
    (files : String → Except String Str) (filename : String) (data : Str)
    (pre fm body : List Str) (d1 d2 : Str)
    (hread : files filename = .ok data)
    (hsplit : stringsSplit data = pre ++ d1 :: (fm ++ d2 :: body))
    (hpre : ∀ l ∈ pre, isDelimiter l = false) (hd1 : isDelimiter d1 = true)
    (hfm : ∀ l ∈ fm, isDelimiter l = false) (hd2 : isDelimiter d2 = true)
    (hbody : body ≠ []) :
    (readParseFile render now files filename).Content = render (stringsJoin body) := by
  rw [readParseFile_two_delimiters render now files filename data pre fm body d1 d2
    hread hsplit hpre hd1 hfm hd2]
  simp only [hbody, if_false]

/-- Witness for C12, amended: the body of the example of the specification. -/
theorem readParseFile_body_witness :
    stringsSplit helloFile =
      [] ++ "---".toList ::
        (["title: \"Hello\"".toList, "date: 2021-03-01".toList, "status: draft".toList] ++
          "---".toList :: ["Body text".toList]) ∧
    ["Body text".toList] ≠ [] ∧
    (readParseFile id ⟨0⟩ (oneFile helloFile) "hello.md").Content =
      id (stringsJoin ["Body text".toList]) :=
  ⟨by decide, by decide,
    readParseFile_body id ⟨0⟩ (oneFile helloFile) "hello.md" helloFile []
      ["title: \"Hello\"".toList, "date: 2021-03-01".toList, "status: draft".toList]
      ["Body text".toList] "---".toList "---".toList rfl (by decide) (by decide) (by decide)
      (by decide) (by decide) (by decide)⟩

/-- Counterexample to C13 as stated: the file has exactly one line equal to
`---`, and the `title` line after it sets the title. -/
theorem readParseFile_few_delimiters_counterexample :
    ((stringsSplit "---\ntitle: x".toList).filter
      (fun l => decide (l = "---".toList))).length = 1 ∧
    (readParseFile id ⟨0⟩ (oneFile "---\ntitle: x".toList) "a.md").Title = "x".toList ∧
    (readParseFile id ⟨0⟩ (oneFile "---\ntitle: x".toList) "a.md").Title ≠ [] := by
  decide

/-- C13, amended. A delimiter being a line that is `---` once surrounding white
space is removed: for a file with no delimiter line `readParseFile` returns the
default metadata and the rendering of the entire file; for a file with exactly
one delimiter line the `Content` is still the rendering of the entire file and
the metadata are the defaults overwritten by the `key: value` lines after the
delimiter line. -/
theorem readParseFile_few_delimiters (render : Str → Str) (now : Time)
    (files : String → Except String Str) (filename : String) (data : Str)
    (hread : files filename = .ok data) :
    ((∀ l ∈ stringsSplit data, isDelimiter l = false) →
      readParseFile render now files filename =
        { Title := [], Content := render data, Category := [], Date := now, Tags := [],
          Status := "publish".toList }) ∧
    (∀ (pre fm : List Str) (d : Str), stringsSplit data = pre ++ d :: fm →
      (∀ l ∈ pre, isDelimiter l = false) → isDelimiter d = true →
      (∀ l ∈ fm, isDelimiter l = false) →
      (readParseFile render now files filename).Content = render data ∧
      (readParseFile render now files filename).Title =
        (lastValue "title".toList fm).getD [] ∧
      (readParseFile render now files filename).Category =
        (lastValue "category".toList fm).getD [] ∧
      (readParseFile render now files filename).Tags =
        (lastValue "tags".toList fm).getD [] ∧
      (readParseFile render now files filename).Status =
        (lastValue "status".toList fm).getD "publish".toList ∧
      (readParseFile render now files filename).Date =
        ((lastValue "date".toList fm).map (fun v => (timeParse v).1)).getD now) := by
  constructor
  · intro hnone
    rw [readParseFile_no_delimiter render now files filename data hread hnone]
    rfl
  · intro pre fm d hsplit hpre hd hfm
    obtain ⟨h1, h2, h3, h4, h5⟩ := frontMatter_fields fm now
    rw [readParseFile_one_delimiter render now files filename data pre fm d hread hsplit
      hpre hd hfm]
    exact ⟨rfl, h1, h2, h3, h4, h5⟩

/-- Witness for C13, amended: a file of two lines without delimiter. -/
theorem readParseFile_few_delimiters_witness :
    (∀ l ∈ stringsSplit "# Title\ntext".toList, isDelimiter l = false) ∧
    readParseFile id ⟨7⟩ (oneFile "# Title\ntext".toList) "a.md" =
      { Title := [], Content := id "# Title\ntext".toList, Category := [], Date := ⟨7⟩,
        Tags := [], Status := "publish".toList } :=
  ⟨by decide,
    (readParseFile_few_delimiters id ⟨7⟩ (oneFile "# Title\ntext".toList) "a.md"
      "# Title\ntext".toList rfl).1 (by decide)⟩

/-- Counterexample to C14 as stated: the lines end in a carriage return, so no
line is the text `---`, yet the front matter is read: the title is set and
only the last line is rendered. -/
theorem readParseFile_defaults_counterexample :
    (∀ l ∈ stringsSplit "---\r\ntitle: x\r\n---\r\nbody".toList, l ≠ "---".toList) ∧
    (readParseFile id ⟨0⟩ (oneFile "---\r\ntitle: x\r\n---\r\nbody".toList) "a.md").Title =
      "x".toList ∧
    (readParseFile id ⟨0⟩ (oneFile "---\r\ntitle: x\r\n---\r\nbody".toList) "a.md").Content =
      "body".toList := by
  decide

/-- C14, amended. Front-matter defaults: for a file in which no line is `---`
once surrounding white space is removed, `readParseFile` returns the status
`publish`, an empty title, category and tags, and the rendering of the full
file content, which splitting into lines and joining again leaves unchanged. -/
theorem readParseFile_defaults (render : Str → Str) (now : Time)
    (files : String → Except String Str) (filename : String) (data : Str)
    (hread : files filename = .ok data)
    (hnone : ∀ l ∈ stringsSplit data, isDelimiter l = false) :
    (readParseFile render now files filename).Status = "publish".toList ∧
    (readParseFile render now files filename).Title = [] ∧
    (readParseFile render now files filename).Category = [] ∧
    (readParseFile render now files filename).Tags = [] ∧
    (readParseFile render now files filename).Content = render data ∧
    stringsJoin (stringsSplit data) = data := by
  rw [readParseFile_no_delimiter render now files filename data hread hnone]
  exact ⟨rfl, rfl, rfl, rfl, rfl, stringsJoin_stringsSplit data⟩

/-- Witness for C14, amended: lines with leading and trailing blanks are
rendered as they are. -/
theorem readParseFile_defaults_witness :
    (∀ l ∈ stringsSplit "  a line \n\tanother\t".toList, isDelimiter l = false) ∧
    (readParseFile id ⟨0⟩ (oneFile "  a line \n\tanother\t".toList) "a.md").Content =
      id "  a line \n\tanother\t".toList :=
  ⟨by decide,
    (readParseFile_defaults id ⟨0⟩ (oneFile "  a line \n\tanother\t".toList) "a.md"
      "  a line \n\tanother\t".toList rfl (by decide)).2.2.2.2.1⟩

/-- A value that `time.Parse` rejects comes with the zero `time.Time`. -/
theorem timeParse_error (value : Str) (herr : (timeParse value).2 ≠ none) :
    (timeParse value).1 = zeroTime := by
  revert herr
  unfold timeParse
  split
  · dsimp only
    split_ifs <;> simp
  · simp

/-- What `readParseFile` does in general with a `date` line that does not
parse: when the last `date` line of the front matter has a value `time.Parse`
rejects, the returned `Date` is the zero `time.Time`. -/
theorem readParseFile_unparsable_date (render : Str → Str) (now : Time)
    (files : String → Except String Str) (filename : String) (data : Str)
    (pre fm body : List Str) (d1 d2 : Str) (v : Str)
    (hread : files filename = .ok data)
    (hsplit : stringsSplit data = pre ++ d1 :: (fm ++ d2 :: body))
    (hpre : ∀ l ∈ pre, isDelimiter l = false) (hd1 : isDelimiter d1 = true)
    (hfm : ∀ l ∈ fm, isDelimiter l = false) (hd2 : isDelimiter d2 = true)
    (hlast : lastValue "date".toList fm = some v)
    (herr : (timeParse v).2 ≠ none) :
    (readParseFile render now files filename).Date = zeroTime := by
  rw [readParseFile_two_delimiters render now files filename data pre fm body d1 d2
    hread hsplit hpre hd1 hfm hd2]
  have h := (frontMatter_fields fm now).2.2.2.2
  rw [hlast] at h
  show (fm.foldl applyParam (defaultPage now)).Date = zeroTime
  rw [h]
  exact timeParse_error v herr

/-- C15, the code at the failing input: the front matter holds the line
`date: tomorrow`; parsing started at the instant `now`, and the returned
`Date` is the zero `time.Time` (January 1 of year 1), not `now`. -/
theorem readParseFile_bad_date :
    (timeParse "tomorrow".toList).2 ≠ none ∧
    (readParseFile id ⟨1614556800000000000⟩
      (oneFile "---\ndate: tomorrow\n---\nbody".toList) "a.md").Date = zeroTime ∧
    (readParseFile id ⟨1614556800000000000⟩
      (oneFile "---\ndate: tomorrow\n---\nbody".toList) "a.md").Date ≠
        ⟨1614556800000000000⟩ ∧
    (readParseFile id ⟨1614556800000000000⟩
      (oneFile "---\n---\nbody".toList) "a.md").Date = ⟨1614556800000000000⟩ := by
  decide

/-! ## The local scanner -/

theorem foldl_append_if {α β : Type} (keep : α → Bool) (g : α → β) (xs : List α) :
    ∀ init : List β,
      xs.foldl (fun acc x => if keep x then acc ++ [g x] else acc) init =
        init ++ (xs.filter keep).map g := by
  induction xs with
  | nil => intro init; simp
  | cons x xs ih =>
    intro init
    rw [List.foldl_cons, ih]
    cases hk : keep x <;> simp [hk, List.filter_cons]

theorem listContains_infix (sub u : Str) : ∀ t : Str, listContains (t ++ (sub ++ u)) sub = true := by
  intro t
  induction t with
  | nil =>
    cases hs : sub ++ u with
    | nil =>
      have hsub : sub = [] := (List.append_eq_nil.1 hs).1
      simp [listContains, hsub]
    | cons c rest =>
      have hpre : sub.isPrefixOf (c :: rest) = true := by
        rw [← hs]
        exact List.isPrefixOf_iff_prefix.2 (List.prefix_append sub u)
      simp [listContains, hpre]
  | cons c t ih =>
    rw [List.cons_append, listContains, ih]
    simp

/-- A name that ends in `ext` contains `ext`. -/
theorem stringsContains_of_suffix (name ext : String) (h : ext.toList <:+ name.toList) :
    stringsContains name ext = true := by
  obtain ⟨t, ht⟩ := h
  unfold stringsContains
  rw [← ht]
  have := listContains_infix ext.toList [] t
  simpa using this

/-- Counterexample to C16 as stated: the names `notes.md.bak` and
`a.jpg.txt` do not end in the extension and are returned all the same. -/
theorem getLocal_counterexample :
    ¬ (".md".toList <:+ "notes.md.bak".toList) ∧
    ¬ (".jpg".toList <:+ "a.jpg.txt".toList) ∧
    getLocalPosts (.ok [⟨"notes.md.bak", ⟨5⟩⟩]) = .ok [⟨"notes.md.bak", 0, "", ⟨⟨5⟩⟩⟩] ∧
    getLocalMedia (.ok [⟨"a.jpg.txt", ⟨5⟩⟩]) = .ok [⟨"a.jpg.txt", 0, ""⟩] :=
  ⟨by decide, by decide, rfl, rfl⟩

/-- C16, amended. For every directory listing `getLocalPosts` returns, in
listing order, one descriptor for exactly the entries whose name contains
`.md`, and `getLocalMedia` one for exactly the entries whose name contains
`.jpg`; every name that ends in the extension contains it. -/
theorem getLocal_eq_filter (files : List FileInfo) :
    getLocalPosts (.ok files) =
      .ok ((files.filter (fun f => stringsContains f.Name ".md")).map
        (fun f => { LocalFile := f.Name, Id := 0, URL := "", Date := ⟨f.ModTime⟩ })) ∧
    getLocalMedia (.ok files) =
      .ok ((files.filter (fun f => stringsContains f.Name ".jpg")).map
        (fun f => { LocalFile := f.Name, Id := 0, Link := "" })) ∧
    (∀ name : String, ".md".toList <:+ name.toList → stringsContains name ".md" = true) ∧
    (∀ name : String, ".jpg".toList <:+ name.toList → stringsContains name ".jpg" = true) := by
  refine ⟨?_, ?_, ?_, ?_⟩
  · unfold getLocalPosts
    simp only []
    rw [@foldl_append_if FileInfo Post (fun f => stringsContains f.Name ".md")
      (fun f => { LocalFile := f.Name, Id := 0, URL := "", Date := ⟨f.ModTime⟩ }) files []]
    simp
  · unfold getLocalMedia
    simp only []
    rw [@foldl_append_if FileInfo Media (fun f => stringsContains f.Name ".jpg")
      (fun f => { LocalFile := f.Name, Id := 0, Link := "" }) files []]
    simp
  · intro name h
    exact stringsContains_of_suffix name ".md" h
  · intro name h
    exact stringsContains_of_suffix name ".jpg" h

/-- Witness for C16, amended: a name that ends in `.md` is kept. -/
theorem getLocal_eq_filter_witness :
    ".md".toList <:+ "a.md".toList ∧ stringsContains "a.md" ".md" = true :=
  ⟨by decide, (getLocal_eq_filter []).2.2.1 "a.md" (by decide)⟩

/-! ## The publisher driver -/

theorem forRange_from {α ω : Type} (body : ω → α → α × ω) (rest : List α) :
    ∀ (done : List α) (w : ω),
      (List.range' done.length rest.length).foldl
        (fun acc i =>
          match acc.1[i]? with
          | none => acc
          | some x => (acc.1.set i (body acc.2 x).1, (body acc.2 x).2))
        (done ++ rest, w) =
      (done ++ List.zipWith (fun _ y => y) rest (replies body w rest),
        worldAfter body w rest) := by
  induction rest with
  | nil => intro done w; simp [replies, worldAfter]
  | cons x rest ih =>
    intro done w
    have hget : (done ++ x :: rest)[done.length]? = some x := by
      rw [List.getElem?_append_right (Nat.le_refl _)]
      simp
    have hset : (done ++ x :: rest).set done.length (body w x).1 =
        (done ++ [(body w x).1]) ++ rest := by simp
    rw [List.length_cons, List.range'_succ, List.foldl_cons]
    simp only [hget, hset]
    have hlen : done.length + 1 = (done ++ [(body w x).1]).length := by simp
    rw [hlen, ih (done ++ [(body w x).1]) (body w x).2]
    simp [replies, worldAfter]

/-- The loop `forRange` in closed form: element `i` of the result is what the
body computed for element `i` of the argument. -/
theorem forRange_eq {α ω : Type} (body : ω → α → α × ω) (w : ω) (xs : List α) :
    forRange body w xs = (replies body w xs, worldAfter body w xs) := by
  have h := forRange_from body xs [] w
  have hzip : ∀ (w : ω) (l : List α),
      List.zipWith (fun _ y => y) l (replies body w l) = replies body w l := by
    intro w l
    induction l generalizing w with
    | nil => rfl
    | cons a l ihl => simp [replies, ihl]
  unfold forRange
  rw [List.range_eq_range']
  simpa [hzip] using h

theorem replies_length {α β ω : Type} (call : ω → α → β × ω) (xs : List α) :
    ∀ w : ω, (replies call w xs).length = xs.length := by
  induction xs with
  | nil => intro w; rfl
  | cons x xs ih => intro w; simp [replies, ih]

/-- The results of a body that merges the reply of a collaborator into its
argument are the arguments merged with the replies of the collaborator. -/
theorem replies_merge {α β ω : Type} (call : ω → α → β × ω) (merge : α → β → α)
    (xs : List α) :
    ∀ w : ω,
      replies (fun w x => (merge x (call w x).1, (call w x).2)) w xs =
        List.zipWith merge xs (replies call w xs) ∧
      worldAfter (fun w x => (merge x (call w x).1, (call w x).2)) w xs =
        worldAfter call w xs := by
  induction xs with
  | nil => intro w; exact ⟨rfl, rfl⟩
  | cons x xs ih =>
    intro w
    obtain ⟨h1, h2⟩ := ih (call w x).2
    exact ⟨by simp [replies, h1], by simp [worldAfter, h2]⟩

theorem map_zipWith_frame {α β κ : Type} (key : α → κ) (merge : α → β → α)
    (hkey : ∀ x y, key (merge x y) = key x) (xs : List α) :
    ∀ ys : List β, ys.length = xs.length →
      (List.zipWith merge xs ys).map key = xs.map key := by
  induction xs with
  | nil => intro ys _; simp
  | cons x xs ih =>
    intro ys hlen
    cases ys with
    | nil => simp at hlen
    | cons y ys =>
      simp only [List.zipWith_cons_cons, List.map_cons, hkey]
      rw [ih ys (by simpa using hlen)]

/-- C17. Publisher driver frame: each of `uploadPosts`, `updatePosts` and
`uploadMediaItems` returns the input list, item by item and in order, with the
merged fields replaced by those of the reply the collaborator gave for that
item (`Id`, `URL`, `Date` for `uploadPosts`; `Date` for `updatePosts`; `Id`,
`Link` for `uploadMediaItems`); there is one reply per item, and `LocalFile`
is kept. -/
theorem publisher_frame {ω : Type} (uploadPost : ω → String → Post × ω)
    (updatePost : ω → Post → Post × ω) (uploadMedia : ω → Media → Media × ω)
    (w : ω) (posts : List Post) (media : List Media) :
    ((uploadPosts uploadPost w posts).1 =
        List.zipWith (fun p r => { p with Id := r.Id, URL := r.URL, Date := r.Date }) posts
          (replies (fun w p => uploadPost w p.LocalFile) w posts) ∧
      (replies (fun w p => uploadPost w p.LocalFile) w posts).length = posts.length ∧
      (uploadPosts uploadPost w posts).1.map (·.LocalFile) = posts.map (·.LocalFile)) ∧
    ((updatePosts updatePost w posts).1 =
        List.zipWith (fun p r => { p with Date := r.Date }) posts
          (replies updatePost w posts) ∧
      (replies updatePost w posts).length = posts.length ∧
      (updatePosts updatePost w posts).1.map (·.LocalFile) = posts.map (·.LocalFile)) ∧
    ((uploadMediaItems uploadMedia w media).1 =
        List.zipWith (fun m r => { m with Id := r.Id, Link := r.Link }) media
          (replies uploadMedia w media) ∧
      (replies uploadMedia w media).length = media.length ∧
      (uploadMediaItems uploadMedia w media).1.map (·.LocalFile) =
        media.map (·.LocalFile)) := by
  have h1 : (uploadPosts uploadPost w posts).1 =
      List.zipWith (fun p r => { p with Id := r.Id, URL := r.URL, Date := r.Date }) posts
        (replies (fun w p => uploadPost w p.LocalFile) w posts) := by
    unfold uploadPosts
    rw [forRange_eq]
    exact (replies_merge (fun w (p : Post) => uploadPost w p.LocalFile)
      (fun p r => { p with Id := r.Id, URL := r.URL, Date := r.Date }) posts w).1
  have h2 : (updatePosts updatePost w posts).1 =
      List.zipWith (fun p r => { p with Date := r.Date }) posts
        (replies updatePost w posts) := by
    unfold updatePosts
    rw [forRange_eq]
    exact (replies_merge updatePost (fun p r => { p with Date := r.Date }) posts w).1
  have h3 : (uploadMediaItems uploadMedia w media).1 =
      List.zipWith (fun m r => { m with Id := r.Id, Link := r.Link }) media
        (replies uploadMedia w media) := by
    unfold uploadMediaItems
    rw [forRange_eq]
    exact (replies_merge uploadMedia (fun m r => { m with Id := r.Id, Link := r.Link })
      media w).1
  have l1 := replies_length (fun w (p : Post) => uploadPost w p.LocalFile) posts w
  have l2 := replies_length updatePost posts w
  have l3 := replies_length uploadMedia media w
  refine ⟨⟨h1, l1, ?_⟩, ⟨h2, l2, ?_⟩, ⟨h3, l3, ?_⟩⟩
  · rw [h1]
    exact map_zipWith_frame (fun (p : Post) => p.LocalFile)
      (fun (p r : Post) => { p with Id := r.Id, URL := r.URL, Date := r.Date })
      (fun _ _ => rfl) posts _ l1
  · rw [h2]
    exact map_zipWith_frame (fun (p : Post) => p.LocalFile)
      (fun (p r : Post) => { p with Date := r.Date })
      (fun _ _ => rfl) posts _ l2
  · rw [h3]
    exact map_zipWith_frame (fun (m : Media) => m.LocalFile)
      (fun (m r : Media) => { m with Id := r.Id, Link := r.Link })
      (fun _ _ => rfl) media _ l3

/-! ## The state store: empty saves and missing or corrupt files -/

/-- C18. Saving nothing is a no-op: `writeRemotePosts []` and
`writeRemoteMedia []` return the directory exactly as it was, whatever its
state, so the snapshot files are neither rewritten nor created. -/
theorem writeRemote_nil {β : Type} (postCodec : JsonCodec Post β)
    (mediaCodec : JsonCodec Media β) (fs : FileSystem β) :
    writeRemotePosts postCodec [] fs = fs ∧ writeRemoteMedia mediaCodec [] fs = fs := by
  simp [writeRemotePosts, writeRemoteMedia]

/-- C19. First-run tolerance: when `posts.json` does not exist `getRemotePosts`
returns the empty sequence and `comparePosts` against it classifies every
local post as new; when `media.json` does not exist the same holds for
`getRemoteMedia` and `compareMedia`. -/
theorem first_run {β : Type} (postCodec : JsonCodec Post β) (mediaCodec : JsonCodec Media β)
    (fs : FileSystem β) (localPosts : List Post) (localMedia : List Media) :
    (fs.postsJson = none →
      getRemotePosts postCodec fs = [] ∧
      comparePosts localPosts (getRemotePosts postCodec fs) = (localPosts, [])) ∧
    (fs.mediaJson = none →
      getRemoteMedia mediaCodec fs = [] ∧
      compareMedia localMedia (getRemoteMedia mediaCodec fs) = localMedia) := by
  constructor
  · intro hnone
    have hget : getRemotePosts postCodec fs = [] := by simp [getRemotePosts, hnone]
    refine ⟨hget, ?_⟩
    rw [hget, comparePosts_eq]
    simp [hasRemotePost, updatesFor]
  · intro hnone
    have hget : getRemoteMedia mediaCodec fs = [] := by simp [getRemoteMedia, hnone]
    refine ⟨hget, ?_⟩
    rw [hget, compareMedia_eq]
    simp [hasRemoteMedia]

/-- Witness for C19: an empty working directory and two local posts. -/
theorem first_run_witness :
    (⟨none, none, true⟩ : FileSystem (List Post)).postsJson = none ∧
    comparePosts [mkPost "a.md" 0 5, mkPost "b.md" 0 6]
        (getRemotePosts (sliceCodec Post) ⟨none, none, true⟩)
      = ([mkPost "a.md" 0 5, mkPost "b.md" 0 6], []) :=
  ⟨rfl,
    ((first_run (sliceCodec Post) ⟨fun _ => .ok [], fun _ => ([], none)⟩ ⟨none, none, true⟩
      [mkPost "a.md" 0 5, mkPost "b.md" 0 6] []).1 rfl).2⟩

theorem decodeArray_cons_ne_nil {α : Type} (decodeElem : Json → α × Option DecodeError)
    (j : Json) (rest : List Json) : (decodeArray decodeElem (j :: rest)).1 ≠ [] := by
  unfold decodeArray
  split <;> simp

theorem goUnmarshal_not_array {α : Type} (zero : α)
    (decodeObject : List (String × Json) → α × Option DecodeError) (v : Json)
    (hv : ∀ items, v ≠ .array items) :
    (goUnmarshal zero decodeObject (.value v)).1 = [] := by
  cases v with
  | array items => exact absurd rfl (hv items)
  | null => rfl
  | bool b => rfl
  | number n => rfl
  | string s => rfl
  | object fields => rfl

/-- Counterexample to C20 as stated: `media.json` holds the JSON text `[5]`,
well-formed JSON whose element has the wrong shape; decoding reports an error
and `getRemoteMedia` returns one entry, the zero `Media`. -/
theorem getRemote_corrupt_counterexample :
    (goUnmarshal (⟨"", 0, ""⟩ : Media) (fun _ => (⟨"", 0, ""⟩, none))
      (.value (.array [.number 5]))).2 ≠ none ∧
    getRemoteMedia
        (goJson (⟨"", 0, ""⟩ : Media) (fun _ => (⟨"", 0, ""⟩, none)) (fun _ => .error "unused"))
        ⟨none, some ⟨.value (.array [.number 5]), true, true⟩, true⟩
      = [⟨"", 0, ""⟩] ∧
    getRemoteMedia
        (goJson (⟨"", 0, ""⟩ : Media) (fun _ => (⟨"", 0, ""⟩, none)) (fun _ => .error "unused"))
        ⟨none, some ⟨.value (.array [.number 5]), true, true⟩, true⟩
      ≠ [] := by
  decide

/-- C20, amended. Corrupt-state tolerance: when the snapshot file exists but
cannot be read, or its content is not JSON at all, or is well-formed JSON
other than an array, `getRemotePosts` and `getRemoteMedia` return the empty
sequence; when the content is a non-empty JSON array they return at least one
entry, whatever the shape of its elements. -/
theorem getRemote_corrupt (zeroPost : Post)
    (decodePost : List (String × Json) → Post × Option DecodeError)
    (marshalPosts : List Post → Except String JsonText)
    (zeroMedia : Media)
    (decodeMedia : List (String × Json) → Media × Option DecodeError)
    (marshalMedia : List Media → Except String JsonText)
    (fs : FileSystem JsonText) (f : File JsonText) :
    (fs.postsJson = some f →
      (f.readable = false →
        getRemotePosts (goJson zeroPost decodePost marshalPosts) fs = []) ∧
      (f.content = .malformed →
        getRemotePosts (goJson zeroPost decodePost marshalPosts) fs = []) ∧
      (∀ v, f.content = .value v → (∀ items, v ≠ .array items) →
        getRemotePosts (goJson zeroPost decodePost marshalPosts) fs = []) ∧
      (∀ j rest, f.readable = true → f.content = .value (.array (j :: rest)) →
        getRemotePosts (goJson zeroPost decodePost marshalPosts) fs ≠ [])) ∧
    (fs.mediaJson = some f →
      (f.readable = false →
        getRemoteMedia (goJson zeroMedia decodeMedia marshalMedia) fs = []) ∧
      (f.content = .malformed →
        getRemoteMedia (goJson zeroMedia decodeMedia marshalMedia) fs = []) ∧
      (∀ v, f.content = .value v → (∀ items, v ≠ .array items) →
        getRemoteMedia (goJson zeroMedia decodeMedia marshalMedia) fs = []) ∧
      (∀ j rest, f.readable = true → f.content = .value (.array (j :: rest)) →
        getRemoteMedia (goJson zeroMedia decodeMedia marshalMedia) fs ≠ [])) := by
  constructor
  · intro hslot
    refine ⟨?_, ?_, ?_, ?_⟩
    · intro hr
      simp [getRemotePosts, hslot, readFile, hr]
    · intro hc
      by_cases hr : f.readable = true
      · simp [getRemotePosts, hslot, readFile, hr, hc, goJson, goUnmarshal]
      · simp [getRemotePosts, hslot, readFile, hr]
    · intro v hc hv
      by_cases hr : f.readable = true
      · simp only [getRemotePosts, hslot, readFile, hr, if_true, hc, goJson]
        exact goUnmarshal_not_array zeroPost decodePost v hv
      · simp [getRemotePosts, hslot, readFile, hr]
    · intro j rest hr hc
      simp only [getRemotePosts, hslot, readFile, hr, if_true, hc, goJson, goUnmarshal]
      exact decodeArray_cons_ne_nil _ j rest
  · intro hslot
    refine ⟨?_, ?_, ?_, ?_⟩
    · intro hr
      simp [getRemoteMedia, hslot, readFile, hr]
    · intro hc
      by_cases hr : f.readable = true
      · simp [getRemoteMedia, hslot, readFile, hr, hc, goJson, goUnmarshal]
      · simp [getRemoteMedia, hslot, readFile, hr]
    · intro v hc hv
      by_cases hr : f.readable = true
      · simp only [getRemoteMedia, hslot, readFile, hr, if_true, hc, goJson]
        exact goUnmarshal_not_array zeroMedia decodeMedia v hv
      · simp [getRemoteMedia, hslot, readFile, hr]
    · intro j rest hr hc
      simp only [getRemoteMedia, hslot, readFile, hr, if_true, hc, goJson, goUnmarshal]
      exact decodeArray_cons_ne_nil _ j rest

/-- Witness for C20, amended: a `posts.json` that is not JSON at all. -/
theorem getRemote_corrupt_witness :
    (⟨some ⟨.malformed, true, true⟩, none, true⟩ : FileSystem JsonText).postsJson =
      some ⟨.malformed, true, true⟩ ∧
    getRemotePosts
        (goJson (mkPost "" 0 0) (fun _ => (mkPost "" 0 0, none)) (fun _ => .error "unused"))
        ⟨some ⟨.malformed, true, true⟩, none, true⟩ = [] :=
  ⟨rfl,
    ((getRemote_corrupt (mkPost "" 0 0) (fun _ => (mkPost "" 0 0, none))
      (fun _ => .error "unused") ⟨"", 0, ""⟩ (fun _ => (⟨"", 0, ""⟩, none))
      (fun _ => .error "unused") ⟨some ⟨.malformed, true, true⟩, none, true⟩
      ⟨.malformed, true, true⟩).1 rfl).2.1 rfl⟩

end WPSync
